import Mathlib

/-!
# Simulation-based combinational equivalence checking

A shallow embedding of `include/mockturtle/algorithms/simulation_cec.hpp`:
the splitting heuristic, the pattern store, the round pattern updater, the
equivalence oracle, the round driver `run` and the entry point
`simulation_cec`, followed by theorems about them.

Machine integers (`uint32_t`) are natural numbers reduced modulo `2 ^ 32`
where the source can leave the 32-bit range.
-/

namespace mockturtle

/-! ## Data model -/

/-- Statistics to be reported (`simulation_cec_stats`); both fields start at 0. -/
structure simulation_cec_stats where
  /-- Split variable (simulation size). -/
  split_var : Nat
  /-- Number of simulation rounds. -/
  rounds : Nat
deriving DecidableEq

/-- A signal points to a node, given by its index in the node storage, and may
be complemented. -/
structure signal where
  index : Nat
  complement : Bool
deriving DecidableEq

/-- A gate: its fan-in signals and its gate function over the fan-in values. -/
structure gate where
  fanin : List signal
  fn : List Bool → Bool

/-- A logic network as the algorithm sees it through the `Ntk` interface.
Node 0 is the constant-false node, nodes `1 .. num_pis` are the primary inputs
in declaration order (the input with ordinal `k` is node `k + 1`), and the
gate at position `j` of `gates` is node `num_pis + 1 + j` (creation order is a
topological order).  `pos` lists the primary outputs in declaration order. -/
structure network where
  num_pis : Nat
  gates : List gate
  pos : List signal

/-- The node of the primary input with ordinal `k` (`foreach_pi` passes both). -/
def network.pi_node (_ntk : network) (k : Nat) : Nat := k + 1

/-- The node of the gate at position `j` (`foreach_gate` order). -/
def network.gate_node (ntk : network) (j : Nat) : Nat := ntk.num_pis + 1 + j

/-- The size of the node storage, `_storage->nodes.size()`: the constant node,
the primary inputs and the gates. -/
def network.size (ntk : network) : Nat := 1 + ntk.num_pis + ntk.gates.length

/-- The gates `gs`, stored from node `n` on, are in topological order: every
fan-in of a gate is an earlier node. -/
def topological : List gate → Nat → Prop
  | [], _ => True
  | g :: gs, n => (∀ f ∈ g.fanin, f.index < n) ∧ topological gs (n + 1)

/-- A well-formed network: creation order is topological, and every primary
output is driven by a node of the network. -/
def network.wf (ntk : network) : Prop :=
  topological ntk.gates (ntk.num_pis + 1) ∧ (∀ m ∈ ntk.pos, m.index < ntk.size)

/-! ## Truth tables (`kitty::dynamic_truth_table`) -/

/-- A truth table over `num_vars` variables; `bits` lists the `2 ^ num_vars`
function values, position `i` holding the value at the input combination whose
binary code is `i`.  (A default-constructed table has no bits at all.) -/
structure dynamic_truth_table where
  num_vars : Nat
  bits : List Bool
deriving DecidableEq

/-- Bit `k` of the natural number `x`. -/
def nth_bit (x k : Nat) : Bool := decide (x / 2 ^ k % 2 = 1)

/-- The constructor `dynamic_truth_table( n )`: the all-zero table over `n` variables. -/
def dynamic_truth_table.zero (n : Nat) : dynamic_truth_table :=
  ⟨n, List.replicate (2 ^ n) false⟩

/-- The default constructor `dynamic_truth_table()`: no variables, no blocks. -/
def dynamic_truth_table.empty : dynamic_truth_table := ⟨0, []⟩

/-- The function `kitty::create_nth_var( tt, k )`: `tt` becomes the projection
on variable `k`, whose bit `i` is bit `k` of `i`. -/
def create_nth_var (tt : dynamic_truth_table) (k : Nat) : dynamic_truth_table :=
  ⟨tt.num_vars, (List.range (2 ^ tt.num_vars)).map (fun i => nth_bit i k)⟩

/-- The operator `~tt`: bitwise complement within the width of the table. -/
def unary_not (tt : dynamic_truth_table) : dynamic_truth_table :=
  ⟨tt.num_vars, tt.bits.map (fun b => !b)⟩

/-- The test `kitty::is_const0( tt )`: every bit of the table is 0. -/
def is_const0 (tt : dynamic_truth_table) : Bool :=
  tt.bits.all (fun b => !b)

/-! ## Pattern store (`unordered_node_map<kitty::dynamic_truth_table, Ntk>`) -/

/-- The pattern store: a finite map from nodes to truth tables. -/
abbrev pattern_t := Nat → Option dynamic_truth_table

/-- The store `pattern_t patterns( _ntk )`: no entries. -/
def pattern_t.init : pattern_t := fun _ => none

/-- The test `patterns.has( n )`. -/
def pattern_t.has (patterns : pattern_t) (n : Nat) : Bool := (patterns n).isSome

/-- Reading `patterns[n]`.  On an absent key `operator[]` yields a
default-constructed table; every key read by the algorithm is present when it
is read on a well-formed network. -/
def pattern_t.read (patterns : pattern_t) (n : Nat) : dynamic_truth_table :=
  (patterns n).getD dynamic_truth_table.empty

/-- The assignment `patterns[n] = tt`. -/
def pattern_t.assign (patterns : pattern_t) (n : Nat) (tt : dynamic_truth_table) :
    pattern_t :=
  fun m => if m = n then some tt else patterns m

/-- The call `patterns.erase( n )`. -/
def pattern_t.erase (patterns : pattern_t) (n : Nat) : pattern_t :=
  fun m => if m = n then none else patterns m

/-! ## Splitting heuristic -/

/-- Floor of the binary logarithm of `x`, by repeated halving (`fuel` halvings
at most; 32 are enough for a 32-bit value). -/
def log2_halving : Nat → Nat → Nat
  | 0, _ => 0
  | fuel + 1, x => if x < 2 then 0 else log2_halving fuel (x / 2) + 1

/-- The conversion `uint32_t z = log2( x ) + 3` for a 32-bit unsigned `x`.
For `1 ≤ x < 2 ^ 32` the double `log2( x )` lies in `[k, k + 1)` exactly when
`2 ^ k ≤ x < 2 ^ (k + 1)`, so the truncating conversion gives `k + 3`.  For
`x = 0` the logarithm is minus infinity, whose conversion the language leaves
open; the model takes 0, the value the usual 64-bit targets produce. -/
def log2_plus3_u32 (x : Nat) : Nat :=
  if x = 0 then 0 else log2_halving 32 x + 3

/-- The function `compute_splitting_var`, on the two values it reads from the
network: `n = _n.num_pis()` and `v = _n._storage->nodes.size()`, both
`uint32_t`.  The quotient `(1<<29)/v` and the subtraction of 32 are unsigned
32-bit operations, so the difference wraps modulo `2 ^ 32`.  (For `v = 0` the
source divides by zero; a network always has its constant node, so `v ≥ 1`.) -/
def compute_splitting_var (n v : Nat) : Nat :=
  if n ≤ 6 then
    n
  else
    let z := log2_plus3_u32 ((2 ^ 29 / v + 2 ^ 32 - 32) % 2 ^ 32)
    let split_var := min n z
    split_var

/-- The function `compute_rounds`: `1 << (n - m)` on a 32-bit `int`, stored
in a `uint32_t`.  The unsigned subtraction wraps modulo `2 ^ 32`.  A shift by
32 or more is outside what the language defines for a 32-bit operand; the
compiled code shifts by the low five bits of the count, and the model does
the same, so the result is `1 << ((n - m) mod 32)`. -/
def compute_rounds (n m : Nat) : Nat :=
  let rounds := (1 <<< (((n + 2 ^ 32 - m) % 2 ^ 32) % 32)) % 2 ^ 32
  rounds

/-! ## Pattern store initialisation and teardown -/

/-- The function `init_patterns( _net, n, patterns )`: every primary input
gets a table over `n` variables, the projection on variable `k` when its
ordinal `k` is below `n` and the freshly constructed all-zero table otherwise. -/
def init_patterns (net : network) (n : Nat) (patterns : pattern_t) : pattern_t :=
  (List.range net.num_pis).foldl
    (fun patterns k =>
      let tt := dynamic_truth_table.zero n
      let tt := if k < n then create_nth_var tt k else tt
      patterns.assign (net.pi_node k) tt)
    patterns

/-- The function `free( patterns )`: erase the entry of every gate. -/
def free (ntk : network) (patterns : pattern_t) : pattern_t :=
  (List.range ntk.gates.length).foldl
    (fun patterns j => patterns.erase (ntk.gate_node j))
    patterns

/-! ## Equivalence oracle -/

/-- The function `equivalent( _net, patterns )`: `check` starts true and is
cleared by every primary output whose pattern, complemented when the output
is, is not constant 0. -/
def equivalent (net : network) (patterns : pattern_t) : Bool :=
  net.pos.foldl
    (fun check m =>
      if m.complement then
        if !is_const0 (unary_not (patterns.read m.index)) then false else check
      else
        if !is_const0 (patterns.read m.index) then false else check)
    true

/-! ## Round pattern updater -/

/-- One step of the `foreach_pi` loop of `update_pattern` at ordinal `k`; the
state is the store together with the working counter `nb_rounds`. -/
def update_pattern_step (split_var : Nat) (ntk : network)
    (state : pattern_t × Nat) (k : Nat) : pattern_t × Nat :=
  let patterns := state.1
  let nb_rounds := state.2
  let m := ntk.pi_node k
  if k ≥ split_var then
    let patterns :=
      if nb_rounds % 2 = 1 then
        if is_const0 (patterns.read m) then
          patterns.assign m (unary_not (patterns.read m))
        else patterns
      else
        if !is_const0 (patterns.read m) then
          patterns.assign m (unary_not (patterns.read m))
        else patterns
    (patterns, nb_rounds / 2)
  else
    (patterns, nb_rounds)

/-- The function `update_pattern( patterns, num_r )` of an instance whose
statistics hold `split_var`.  The round index `num_r` is a `uint32_t` in the
source: the values a caller can pass are those below `2 ^ 32`. -/
def update_pattern (ntk : network) (split_var : Nat) (patterns : pattern_t)
    (num_r : Nat) : pattern_t :=
  ((List.range ntk.num_pis).foldl (update_pattern_step split_var ntk)
    (patterns, num_r)).1

/-! ## Simulation engine -/

/-- Modelled from the spec: the simulator `default_simulator` over truth
tables (`simulation.hpp` is not part of the sources at hand); it carries the
number of variables of the tables it creates. -/
structure default_simulator where
  num_vars : Nat

/-- Modelled from the spec: `compute_constant` of the simulator, the constant
table of the simulator's width (`simulation.hpp` is not part of the sources
at hand). -/
def default_simulator.compute_constant (sim : default_simulator) (value : Bool) :
    dynamic_truth_table :=
  let tt := dynamic_truth_table.zero sim.num_vars
  if value then unary_not tt else tt

/-- Modelled from the spec: the pattern of one gate, its gate function applied
bitwise to the patterns of its fan-ins, complemented fan-ins read complemented
(the network's `compute` is not part of the sources at hand). -/
def compute (num_vars : Nat) (g : gate) (patterns : pattern_t) : dynamic_truth_table :=
  ⟨num_vars, (List.range (2 ^ num_vars)).map (fun i =>
    g.fn (g.fanin.map (fun f => ((patterns.read f.index).bits.getD i false) != f.complement)))⟩

/-- Modelled from the spec: the gate pass of the simulation engine, in
topological order starting at node `n`; a gate that already has an entry keeps
it, which is why the driver erases the gate entries between two rounds
(`simulation.hpp` is not part of the sources at hand). -/
def simulate_gates (sim : default_simulator) : List gate → Nat → pattern_t → pattern_t
  | [], _, patterns => patterns
  | g :: gs, n, patterns =>
    simulate_gates sim gs (n + 1)
      (if patterns.has n then patterns else patterns.assign n (compute sim.num_vars g patterns))

/-- Modelled from the spec: the simulation engine `simulate_nodes( ntk,
patterns, sim )` (`simulation.hpp` is not part of the sources at hand).  Given
a store populated for all primary inputs it gives the constant node the
constant-0 table of the simulator's width and then fills every gate's pattern
with its gate function applied bitwise to its fan-in patterns. -/
def simulate_nodes (ntk : network) (patterns : pattern_t) (sim : default_simulator) :
    pattern_t :=
  let patterns :=
    if patterns.has 0 then patterns else patterns.assign 0 (sim.compute_constant false)
  simulate_gates sim ntk.gates (ntk.num_pis + 1) patterns

/-! ## Reference semantics of a network -/

/-- The value of every node once the gates from node `n` on are evaluated in
order over the node values `val`. -/
def eval_gates : List gate → Nat → (Nat → Bool) → (Nat → Bool)
  | [], _, val => val
  | g :: gs, n, val =>
    eval_gates gs (n + 1)
      (fun m => if m = n then g.fn (g.fanin.map (fun f => val f.index != f.complement))
                else val m)

/-- The value of every node of `ntk` under the assignment `a` of its primary
inputs (`a k` is the value of the input with ordinal `k`). -/
def node_values (ntk : network) (a : Nat → Bool) : Nat → Bool :=
  eval_gates ntk.gates (ntk.num_pis + 1)
    (fun m => if m = 0 then false else if m ≤ ntk.num_pis then a (m - 1) else false)

/-- The value of the primary output `m` under the assignment `a`, its
complementation flag applied. -/
def po_value (ntk : network) (a : Nat → Bool) (m : signal) : Bool :=
  node_values ntk a m.index != m.complement

/-- The input combination with binary code `x`: input `k` reads bit `k` of `x`. -/
def input_combination (x : Nat) : Nat → Bool := fun k => nth_bit x k

/-- The brute-force check in the words of the specification: evaluate every
primary output (complement-adjusted) on all `2 ^ n` input combinations and
accept iff all values are 0. -/
def brute_force (ntk : network) : Bool :=
  (List.range (2 ^ ntk.num_pis)).all (fun x =>
    ntk.pos.all (fun m => !po_value ntk (input_combination x) m))

/-! ## Round driver -/

/-- The instance `simulation_cec_impl`: the network and the statistics it
reports into. -/
structure simulation_cec_impl where
  ntk : network
  st : simulation_cec_stats

/-- What a call of `run` leaves behind: the returned verdict, the statistics
object, and (for the statements about early termination) the number of
simulate-and-check passes carried out. -/
structure run_outcome where
  verdict : Bool
  st : simulation_cec_stats
  passes : Nat

/-- The loop `for ( num_r = 1; num_r < rounds; num_r++ )` of `run`, with
`count` iterations left; it returns the verdict and the number of passes
carried out. -/
def run_loop (ntk : network) (split_var : Nat) (sim : default_simulator) :
    Nat → Nat → pattern_t → Bool × Nat
  | 0, _, _ => (true, 0)
  | count + 1, num_r, patterns =>
    let patterns := free ntk patterns
    let patterns := update_pattern ntk split_var patterns num_r
    let patterns := simulate_nodes ntk patterns sim
    if !equivalent ntk patterns then
      (false, 1)
    else
      let rest := run_loop ntk split_var sim count (num_r + 1) patterns
      (rest.1, rest.2 + 1)

/-- The body of `run` below the two assignments to `_st`, for given values of
`_st.split_var` and `_st.rounds`: round 0, then the loop over the rounds
`1 .. rounds - 1`. -/
def run_rounds (ntk : network) (split_var rounds : Nat) : Bool × Nat :=
  let patterns := init_patterns ntk split_var pattern_t.init
  let sim : default_simulator := ⟨split_var⟩
  let patterns := simulate_nodes ntk patterns sim
  if !equivalent ntk patterns then
    (false, 1)
  else
    let rest := run_loop ntk split_var sim (rounds - 1) 1 patterns
    (rest.1, rest.2 + 1)

/-- The method `simulation_cec_impl::run`.  The node count is narrowed to
`uint32_t` where `compute_splitting_var` reads it. -/
def simulation_cec_impl.run (p : simulation_cec_impl) : run_outcome :=
  let split_var := compute_splitting_var p.ntk.num_pis (p.ntk.size % 2 ^ 32)
  let rounds := compute_rounds p.ntk.num_pis split_var
  let r := run_rounds p.ntk split_var rounds
  ⟨r.1, ⟨split_var, rounds⟩, r.2⟩

/-! ## Entry point -/

/-- What a call of `simulation_cec` leaves behind: the returned optional, the
content of the caller's statistics handle (`none` when no handle was passed),
and three observations of the call: how often the miter was built, how many
simulation passes ran, and whether the handle was written. -/
structure cec_outcome where
  result : Option Bool
  pst : Option simulation_cec_stats
  miter_calls : Nat
  passes : Nat
  pst_written : Bool

/-- The function `simulation_cec( ntk1, ntk2, pst )`.  Miter construction
(`miter.hpp`) is a collaborator and enters as the parameter `miter`.  `pst` is
the content of the caller's handle, `none` for a null pointer. -/
def simulation_cec (miter : network → network → Option network)
    (ntk1 ntk2 : network) (pst : Option simulation_cec_stats) : cec_outcome :=
  let st : simulation_cec_stats := ⟨0, 0⟩
  let result := false
  if ntk1.num_pis > 40 then
    ⟨none, pst, 0, 0, false⟩
  else
    match miter ntk1 ntk2 with
    | some ntk_miter =>
      let o := simulation_cec_impl.run ⟨ntk_miter, st⟩
      ⟨some o.verdict, pst.map (fun _ => o.st), 1, o.passes, pst.isSome⟩
    | none =>
      ⟨some result, pst.map (fun _ => st), 1, 0, pst.isSome⟩

/-! ## Miter construction -/

/-- The gate function of an AND gate: all fan-in values are 1. -/
def and_fn : List Bool → Bool := fun l => l.all id

/-- The gate function of an OR gate: some fan-in value is 1. -/
def or_fn : List Bool → Bool := fun l => l.any id

/-- The gate function of an XOR gate: the parity of the fan-in values. -/
def xor_fn : List Bool → Bool := fun l => l.foldl (fun a b => a != b) false

/-- Modelled from the spec: where a node of the second network lands in the
miter (`miter.hpp` is not part of the sources at hand).  The constant and the
primary inputs are shared; a gate moves up by `offset`, the number of gates of
the first network. -/
def shift_index (num_pis offset m : Nat) : Nat :=
  if m ≤ num_pis then m else m + offset

/-- Modelled from the spec: where a signal of the second network lands in the
miter (`miter.hpp` is not part of the sources at hand); its complementation
flag is kept. -/
def miter_shift (num_pis offset : Nat) (f : signal) : signal :=
  ⟨shift_index num_pis offset f.index, f.complement⟩

/-- Modelled from the spec: a gate of the second network as it is copied into
the miter (`miter.hpp` is not part of the sources at hand). -/
def shift_gate (num_pis offset : Nat) (g : gate) : gate :=
  ⟨g.fanin.map (miter_shift num_pis offset), g.fn⟩

/-- Modelled from the spec: the XOR gates of the miter, one for each pair of
corresponding outputs (`miter.hpp` is not part of the sources at hand). -/
def miter_xors (ntk1 ntk2 : network) : List gate :=
  List.zipWith
    (fun o1 o2 => ⟨[o1, miter_shift ntk2.num_pis ntk1.gates.length o2], xor_fn⟩)
    ntk1.pos ntk2.pos

/-- Modelled from the spec: the miter of two networks with matching
interfaces (`miter.hpp` is not part of the sources at hand).  The two networks
are put behind a shared set of primary inputs and corresponding outputs are
XOR-combined, the XOR gates being the outputs of the miter. -/
def miter_network (ntk1 ntk2 : network) : network :=
  ⟨ntk1.num_pis,
    ntk1.gates ++ ntk2.gates.map (shift_gate ntk2.num_pis ntk1.gates.length)
      ++ miter_xors ntk1 ntk2,
    (List.range ntk1.pos.length).map (fun j =>
      ⟨ntk1.num_pis + 1 + ntk1.gates.length + ntk2.gates.length + j, false⟩)⟩

/-- Modelled from the spec: miter construction `miter( ntk1, ntk2 )`
(`miter.hpp` is not part of the sources at hand): there is no value when the
interfaces differ (mismatched numbers of primary inputs or of primary
outputs). -/
def miter (ntk1 ntk2 : network) : Option network :=
  if ntk1.num_pis = ntk2.num_pis ∧ ntk1.pos.length = ntk2.pos.length then
    some (miter_network ntk1 ntk2)
  else
    none

/-! ## Sample networks -/

/-- A 2-input AND network: one AND gate driving the output. -/
def and2_network : network :=
  ⟨2, [⟨[⟨1, false⟩, ⟨2, false⟩], and_fn⟩], [⟨3, false⟩]⟩

/-- A 2-input OR network: one OR gate driving the output. -/
def or2_network : network :=
  ⟨2, [⟨[⟨1, false⟩, ⟨2, false⟩], or_fn⟩], [⟨3, false⟩]⟩

/-- The miter of the 2-input AND and the 2-input OR networks, written out. -/
def and_or_miter : network :=
  ⟨2, [⟨[⟨1, false⟩, ⟨2, false⟩], and_fn⟩, ⟨[⟨1, false⟩, ⟨2, false⟩], or_fn⟩,
       ⟨[⟨3, false⟩, ⟨4, false⟩], xor_fn⟩], [⟨5, false⟩]⟩

/-- A network with `n` primary inputs, no gate, and one output driven by the
first input. -/
def wire_network (n : Nat) : network := ⟨n, [], [⟨1, false⟩]⟩

/-- A network without primary inputs: no gate, one output driven by the
constant node. -/
def constant_network : network := ⟨0, [], [⟨0, false⟩]⟩

/-- A chain of `len` AND gates stored right after node `prev`: the first gate
joins node `prev` with the first primary input (node 1), every further gate
joins its predecessor with the first primary input. -/
def chain_gates : Nat → Nat → List gate
  | _, 0 => []
  | prev, len + 1 => ⟨[⟨prev, false⟩, ⟨1, false⟩], and_fn⟩ :: chain_gates (prev + 1) len

/-- The network of 40 primary inputs whose gates are the AND chain of length
`len` and whose single output is the end of the chain (node `40 + len`); for
`len ≥ 1` it computes the conjunction of the last and the first input. -/
def chain_network (len : Nat) : network :=
  ⟨40, chain_gates 40 len, [⟨40 + len, false⟩]⟩

/-- The chain network with 5592365 gates: 5592406 nodes in all. -/
def long_chain_network : network := chain_network 5592365

/-! ## Vocabulary of the statements -/

/-- The constant table over `n` variables: all `2 ^ n` bits are `b` (all-zero
for `b = false`, all-ones for `b = true`). -/
def const_table (n : Nat) (b : Bool) : dynamic_truth_table :=
  ⟨n, List.replicate (2 ^ n) b⟩

/-- The projection table on variable `k` over `n` variables, as
`init_patterns` builds it. -/
def projection_table (n k : Nat) : dynamic_truth_table :=
  create_nth_var (dynamic_truth_table.zero n) k

/-- The input assignment that bit position `i` of the patterns stands for in
round `r`: the simulated inputs `k < split_var` read bit `k` of `i`, the
others read bit `k - split_var` of the round index. -/
def round_assignment (split_var r i : Nat) : Nat → Bool :=
  fun k => if k < split_var then nth_bit i k else nth_bit r (k - split_var)

/-- The entry of node `m` after `update_pattern` has treated it with counter
bit `b`: flipped when it is constant 0 and `b` is set, or not constant 0 and
`b` is clear; kept otherwise. -/
def updated_entry (patterns : pattern_t) (m : Nat) (b : Bool) : Option dynamic_truth_table :=
  if b then
    if is_const0 (patterns.read m) then some (unary_not (patterns.read m)) else patterns m
  else
    if !is_const0 (patterns.read m) then some (unary_not (patterns.read m)) else patterns m

/-- The table `t` is a table over `w` variables whose bit `i` is `V i`. -/
def table_holds (w : Nat) (t : dynamic_truth_table) (V : Nat → Bool) : Prop :=
  t.num_vars = w ∧ t.bits.length = 2 ^ w ∧ ∀ i, i < 2 ^ w → t.bits.getD i false = V i

/-- The store has exactly the nodes below `upto`, and the table of node `m`
holds at bit `i` the value `V i m`. -/
def store_agrees (w : Nat) (patterns : pattern_t) (V : Nat → Nat → Bool) (upto : Nat) : Prop :=
  (∀ m, m < upto → ∃ t, patterns m = some t ∧ table_holds w t (fun i => V i m)) ∧
  (∀ m, upto ≤ m → patterns m = none)

/-- The store is in the shape every round relies on: the constant node is
absent or constant 0, the simulated inputs hold their projections, the other
inputs hold constants, and there is no entry beyond the network's nodes. -/
def settled (ntk : network) (split_var : Nat) (patterns : pattern_t) : Prop :=
  (patterns 0 = none ∨ patterns 0 = some (const_table split_var false)) ∧
  (∀ k, k < ntk.num_pis → k < split_var →
    patterns (k + 1) = some (projection_table split_var k)) ∧
  (∀ k, k < ntk.num_pis → split_var ≤ k →
    ∃ c, patterns (k + 1) = some (const_table split_var c)) ∧
  (∀ m, ntk.size ≤ m → patterns m = none)

/-- Round `r` finds no difference: every primary output, its complementation
flag applied, is 0 at every bit position of the round. -/
def round_ok (ntk : network) (split_var r : Nat) : Prop :=
  ∀ i, i < 2 ^ split_var → ∀ m ∈ ntk.pos, po_value ntk (round_assignment split_var r i) m = false

/-- The input assignment read off the store at bit position `i`: the input
with ordinal `k` reads bit `i` of its pattern. -/
def read_assignment (ntk : network) (patterns : pattern_t) (i : Nat) : Nat → Bool :=
  fun k => (patterns.read (ntk.pi_node k)).bits.getD i false

/-- The primary-input patterns of round `r`: those of `init_patterns` for
round 0, and for a later round those that `update_pattern` makes of the store
`prev` left by the rounds before. -/
def round_patterns (ntk : network) (split_var : Nat) (prev : pattern_t) (r : Nat) :
    pattern_t :=
  if r = 0 then init_patterns ntk split_var pattern_t.init
  else update_pattern ntk split_var prev r

/-- The store on which the oracle of round `r` runs when the rounds before it
have been carried out: simulated from the initial patterns in round 0, and
from the purged and updated store of the round before otherwise. -/
def round_store (ntk : network) (split_var : Nat) : Nat → pattern_t
  | 0 => simulate_nodes ntk (init_patterns ntk split_var pattern_t.init) ⟨split_var⟩
  | r + 1 =>
    simulate_nodes ntk
      (update_pattern ntk split_var (free ntk (round_store ntk split_var r)) (r + 1))
      ⟨split_var⟩

/-- The answer of the equivalence oracle in round `r`. -/
def oracle (ntk : network) (split_var r : Nat) : Bool :=
  equivalent ntk (round_store ntk split_var r)

/-- The number of gates of the network that have an entry in the store. -/
def gate_entries (ntk : network) (patterns : pattern_t) : Nat :=
  ((List.range ntk.gates.length).filter (fun j => patterns.has (ntk.gate_node j))).length

/-- The stores that a check can reach for a network and a splitting variable:
the initial store, and whatever `update_pattern`, the simulation engine and
`free` make of a reachable store. -/
inductive reachable (ntk : network) (split_var : Nat) : pattern_t → Prop
  | init : reachable ntk split_var (init_patterns ntk split_var pattern_t.init)
  | update (patterns : pattern_t) (num_r : Nat) :
      reachable ntk split_var patterns →
      reachable ntk split_var (update_pattern ntk split_var patterns num_r)
  | simulate (patterns : pattern_t) :
      reachable ntk split_var patterns →
      reachable ntk split_var (simulate_nodes ntk patterns ⟨split_var⟩)
  | free (patterns : pattern_t) :
      reachable ntk split_var patterns →
      reachable ntk split_var (free ntk patterns)

/-! ## Truth tables and the store: basic facts -/

theorem nth_bit_eq_testBit (x k : Nat) : nth_bit x k = x.testBit k := by
  simp [nth_bit, Nat.testBit_to_div_mod]

theorem zero_eq_const_table (n : Nat) :
    dynamic_truth_table.zero n = const_table n false := rfl

theorem unary_not_const_table (n : Nat) (b : Bool) :
    unary_not (const_table n b) = const_table n (!b) := by
  simp [unary_not, const_table]

theorem is_const0_const_table (n : Nat) (b : Bool) :
    is_const0 (const_table n b) = !b := by
  have h : 2 ^ n ≠ 0 := by positivity
  simp [is_const0, const_table, List.all_replicate, h]

theorem const_table_getElem (n : Nat) (b : Bool) (i : Nat) (hi : i < 2 ^ n) :
    (const_table n b).bits[i]? = some b := by
  simp [const_table, List.getElem?_replicate, hi]

theorem projection_table_getElem (n k i : Nat) (hi : i < 2 ^ n) :
    (projection_table n k).bits[i]? = some (nth_bit i k) := by
  simp [projection_table, create_nth_var, dynamic_truth_table.zero, List.getElem?_map,
    List.getElem?_range hi]

theorem projection_table_length (n k : Nat) :
    (projection_table n k).bits.length = 2 ^ n := by
  simp [projection_table, create_nth_var, dynamic_truth_table.zero]

theorem read_of_some {patterns : pattern_t} {m : Nat} {t : dynamic_truth_table}
    (h : patterns m = some t) : patterns.read m = t := by
  simp [pattern_t.read, h]

/-! ## `init_patterns` and `free` -/

theorem foldl_assign_range (F : Nat → dynamic_truth_table) (N : Nat) (patterns : pattern_t)
    (m : Nat) :
    (List.range N).foldl (fun (p : pattern_t) k => p.assign (k + 1) (F k)) patterns m
      = if 1 ≤ m ∧ m ≤ N then some (F (m - 1)) else patterns m := by
  induction N with
  | zero =>
    have : ¬ (1 ≤ m ∧ m = 0) := by omega
    simp [this]
  | succ N ih =>
    rw [List.range_succ, List.foldl_append]
    simp only [List.foldl_cons, List.foldl_nil, pattern_t.assign]
    rw [ih]
    by_cases h1 : m = N + 1
    · subst h1
      simp
    · by_cases h2 : 1 ≤ m ∧ m ≤ N
      · have h3 : 1 ≤ m ∧ m ≤ N + 1 := by omega
        simp [h1, h2, h3]
      · have h3 : ¬ (1 ≤ m ∧ m ≤ N + 1) := by omega
        simp [h1, h2, h3]

theorem init_patterns_apply (net : network) (n : Nat) (patterns : pattern_t) (m : Nat) :
    init_patterns net n patterns m
      = if 1 ≤ m ∧ m ≤ net.num_pis then
          some (if m - 1 < n then projection_table n (m - 1) else const_table n false)
        else patterns m := by
  unfold init_patterns
  exact foldl_assign_range
    (fun k => if k < n then projection_table n k else const_table n false)
    net.num_pis patterns m

theorem init_patterns_pi (net : network) (n : Nat) (patterns : pattern_t) (k : Nat)
    (hk : k < net.num_pis) :
    init_patterns net n patterns (net.pi_node k)
      = some (if k < n then projection_table n k else const_table n false) := by
  rw [init_patterns_apply]
  have h : 1 ≤ k + 1 ∧ k + 1 ≤ net.num_pis := by omega
  simp only [network.pi_node, h]
  simp

theorem free_apply (ntk : network) (patterns : pattern_t) (m : Nat) :
    free ntk patterns m
      = if ntk.num_pis + 1 ≤ m ∧ m < ntk.size then none else patterns m := by
  unfold free network.size
  generalize ntk.gates.length = N
  induction N with
  | zero =>
    have : ¬ (ntk.num_pis + 1 ≤ m ∧ m < 1 + ntk.num_pis) := by omega
    simp [this]
  | succ N ih =>
    rw [List.range_succ, List.foldl_append]
    simp only [List.foldl_cons, List.foldl_nil, pattern_t.erase]
    rw [ih]
    simp only [network.gate_node]
    by_cases h1 : m = ntk.num_pis + 1 + N
    · have h3 : ntk.num_pis + 1 ≤ m ∧ m < 1 + ntk.num_pis + (N + 1) := by omega
      rw [if_pos h1, if_pos h3]
    · by_cases h2 : ntk.num_pis + 1 ≤ m ∧ m < 1 + ntk.num_pis + N
      · have h3 : ntk.num_pis + 1 ≤ m ∧ m < 1 + ntk.num_pis + (N + 1) := by omega
        simp [h1, h2, h3]
      · have h3 : ¬ (ntk.num_pis + 1 ≤ m ∧ m < 1 + ntk.num_pis + (N + 1)) := by omega
        simp [h1, h2, h3]

/-! ## `update_pattern` -/

theorem update_pattern_step_eq (split_var : Nat) (ntk : network) (patterns : pattern_t)
    (nb k : Nat) :
    update_pattern_step split_var ntk (patterns, nb) k
      = if split_var ≤ k then
          (fun m => if m = k + 1 then updated_entry patterns (k + 1) (decide (nb % 2 = 1))
                    else patterns m, nb / 2)
        else (patterns, nb) := by
  unfold update_pattern_step
  simp only [network.pi_node, ge_iff_le]
  by_cases hk : split_var ≤ k
  · simp only [hk, if_true]
    congr 1
    funext m
    by_cases hb : nb % 2 = 1
    · by_cases hc : is_const0 (patterns.read (k + 1)) = true
      · by_cases hm : m = k + 1 <;> simp [updated_entry, hb, hc, hm, pattern_t.assign]
      · by_cases hm : m = k + 1 <;> simp [updated_entry, hb, hc, hm, pattern_t.assign]
    · by_cases hc : is_const0 (patterns.read (k + 1)) = true
      · by_cases hm : m = k + 1 <;> simp [updated_entry, hb, hc, hm, pattern_t.assign]
      · by_cases hm : m = k + 1 <;> simp [updated_entry, hb, hc, hm, pattern_t.assign]
  · simp [hk]

theorem update_pattern_fold (split_var : Nat) (ntk : network) (patterns : pattern_t)
    (r N : Nat) :
    ((List.range N).foldl (update_pattern_step split_var ntk) (patterns, r)).2
        = r / 2 ^ (N - split_var) ∧
    ∀ m, ((List.range N).foldl (update_pattern_step split_var ntk) (patterns, r)).1 m
        = if 1 ≤ m ∧ split_var ≤ m - 1 ∧ m - 1 < N then
            updated_entry patterns m (nth_bit r (m - 1 - split_var))
          else patterns m := by
  induction N with
  | zero =>
    refine ⟨by simp, fun m => ?_⟩
    have : ¬ (1 ≤ m ∧ split_var ≤ m - 1 ∧ m - 1 < 0) := by omega
    simp [this]
  | succ N ih =>
    obtain ⟨ih2, ih1⟩ := ih
    rw [List.range_succ, List.foldl_append]
    simp only [List.foldl_cons, List.foldl_nil]
    generalize hst : (List.range N).foldl (update_pattern_step split_var ntk) (patterns, r) = st
      at ih1 ih2
    obtain ⟨q, nb⟩ := st
    simp only at ih1 ih2
    rw [update_pattern_step_eq]
    by_cases hk : split_var ≤ N
    · simp only [hk, if_true]
      constructor
      · rw [ih2, Nat.div_div_eq_div_mul, ← pow_succ]
        congr 2
        omega
      · intro m
        by_cases hm : m = N + 1
        · subst hm
          have h1 : 1 ≤ N + 1 ∧ split_var ≤ N + 1 - 1 ∧ N + 1 - 1 < N + 1 := by
            refine ⟨by omega, by omega, by omega⟩
          have h2 : ¬ (1 ≤ N + 1 ∧ split_var ≤ N + 1 - 1 ∧ N + 1 - 1 < N) := by omega
          have hq : q (N + 1) = patterns (N + 1) := by rw [ih1, if_neg h2]
          rw [if_pos rfl, if_pos h1]
          have hb : decide (nb % 2 = 1) = nth_bit r (N + 1 - 1 - split_var) := by
            rw [ih2]
            simp [nth_bit]
          rw [hb]
          simp only [updated_entry, pattern_t.read, hq]
        · rw [if_neg hm, ih1]
          by_cases h1 : 1 ≤ m ∧ split_var ≤ m - 1 ∧ m - 1 < N
          · have h2 : 1 ≤ m ∧ split_var ≤ m - 1 ∧ m - 1 < N + 1 := by omega
            rw [if_pos h1, if_pos h2]
          · have h2 : ¬ (1 ≤ m ∧ split_var ≤ m - 1 ∧ m - 1 < N + 1) := by omega
            rw [if_neg h1, if_neg h2]
    · simp only [hk, if_false]
      constructor
      · rw [ih2]
        have e1 : N - split_var = 0 := by omega
        have e2 : N + 1 - split_var = 0 := by omega
        rw [e1, e2]
      · intro m
        rw [ih1]
        by_cases h1 : 1 ≤ m ∧ split_var ≤ m - 1 ∧ m - 1 < N
        · omega
        · have h2 : ¬ (1 ≤ m ∧ split_var ≤ m - 1 ∧ m - 1 < N + 1) := by omega
          rw [if_neg h1, if_neg h2]

theorem update_pattern_apply (ntk : network) (split_var : Nat) (patterns : pattern_t)
    (r m : Nat) :
    update_pattern ntk split_var patterns r m
      = if 1 ≤ m ∧ split_var ≤ m - 1 ∧ m - 1 < ntk.num_pis then
          updated_entry patterns m (nth_bit r (m - 1 - split_var))
        else patterns m :=
  (update_pattern_fold split_var ntk patterns r ntk.num_pis).2 m

theorem updated_entry_const {patterns : pattern_t} {m n : Nat} {c : Bool}
    (h : patterns m = some (const_table n c)) (b : Bool) :
    updated_entry patterns m b = some (const_table n b) := by
  unfold updated_entry
  rw [read_of_some h, is_const0_const_table, unary_not_const_table, h]
  cases b <;> cases c <;> simp

/-! ## The simulation engine computes the reference semantics bitwise -/

theorem simulate_gates_preserve (sim : default_simulator) (gs : List gate) (n : Nat)
    (patterns : pattern_t) (m : Nat) (t : dynamic_truth_table) (h : patterns m = some t) :
    simulate_gates sim gs n patterns m = some t := by
  induction gs generalizing n patterns with
  | nil => simpa [simulate_gates] using h
  | cons g gs ih =>
    simp only [simulate_gates]
    apply ih
    by_cases hn : patterns.has n = true
    · simpa [hn] using h
    · have hmn : m ≠ n := by
        intro e
        subst e
        simp [pattern_t.has, h] at hn
      simp [hn, pattern_t.assign, hmn, h]

theorem simulate_nodes_preserve (ntk : network) (sim : default_simulator)
    (patterns : pattern_t) (m : Nat) (t : dynamic_truth_table) (h : patterns m = some t) :
    simulate_nodes ntk patterns sim m = some t := by
  unfold simulate_nodes
  apply simulate_gates_preserve
  by_cases h0 : patterns.has 0 = true
  · simpa [h0] using h
  · have hm : m ≠ 0 := by
      intro e
      subst e
      simp [pattern_t.has, h] at h0
    simp [h0, pattern_t.assign, hm, h]

theorem compute_table_holds (w : Nat) (g : gate) (patterns : pattern_t) (V : Nat → Nat → Bool)
    (h : ∀ f ∈ g.fanin, ∃ t, patterns f.index = some t ∧ table_holds w t (fun i => V i f.index)) :
    table_holds w (compute w g patterns)
      (fun i => g.fn (g.fanin.map (fun f => V i f.index != f.complement))) := by
  refine ⟨rfl, by simp [compute], fun i hi => ?_⟩
  simp only [compute, List.getD_eq_getElem?_getD, List.getElem?_map, List.getElem?_range hi,
    Option.map_some', Option.getD_some]
  congr 1
  apply List.map_congr_left
  intro f hf
  obtain ⟨t, ht, -, -, hv⟩ := h f hf
  rw [read_of_some ht, ← List.getD_eq_getElem?_getD, hv i hi]

theorem simulate_gates_agrees (w : Nat) (gs : List gate) (n : Nat) (patterns : pattern_t)
    (V : Nat → Nat → Bool) (hs : store_agrees w patterns V n)
    (hwf : topological gs n) :
    store_agrees w (simulate_gates ⟨w⟩ gs n patterns) (fun i => eval_gates gs n (V i))
      (n + gs.length) := by
  induction gs generalizing n patterns V with
  | nil => simpa [simulate_gates, eval_gates] using hs
  | cons g gs ih =>
    simp only [simulate_gates, eval_gates, List.length_cons]
    have hnone : patterns n = none := hs.2 n (Nat.le_refl n)
    have hhas : patterns.has n = false := by simp [pattern_t.has, hnone]
    have hg : ∀ f ∈ g.fanin, f.index < n := hwf.1
    have hstep : store_agrees w (patterns.assign n (compute w g patterns))
        (fun i m => if m = n then g.fn (g.fanin.map (fun f => V i f.index != f.complement))
                    else V i m) (n + 1) := by
      constructor
      · intro m hm
        by_cases hmn : m = n
        · subst hmn
          refine ⟨compute w g patterns, by simp [pattern_t.assign], ?_⟩
          simpa using compute_table_holds w g patterns V (fun f hf => hs.1 f.index (hg f hf))
        · obtain ⟨t, ht, hth⟩ := hs.1 m (by omega)
          refine ⟨t, by simp [pattern_t.assign, hmn, ht], ?_⟩
          simpa [hmn] using hth
      · intro m hm
        have hmn : m ≠ n := by omega
        simp [pattern_t.assign, hmn, hs.2 m (by omega)]
    have hrec := ih (n + 1) (patterns.assign n (compute w g patterns)) _ hstep hwf.2
    have e : n + (gs.length + 1) = n + 1 + gs.length := by omega
    rw [e]
    simpa [hhas] using hrec

theorem simulate_nodes_agrees (ntk : network) (w : Nat) (patterns : pattern_t)
    (a : Nat → Nat → Bool) (hwf : ntk.wf)
    (hconst : patterns 0 = none ∨ patterns 0 = some (const_table w false))
    (hpis : ∀ k, k < ntk.num_pis →
      ∃ t, patterns (k + 1) = some t ∧ table_holds w t (fun i => a i k))
    (hnone : ∀ m, ntk.num_pis + 1 ≤ m → patterns m = none) :
    store_agrees w (simulate_nodes ntk patterns ⟨w⟩) (fun i => node_values ntk (a i))
      ntk.size := by
  unfold simulate_nodes node_values
  have e : ntk.size = ntk.num_pis + 1 + ntk.gates.length := by
    simp only [network.size]; omega
  rw [e]
  apply simulate_gates_agrees
  · constructor
    · intro m hm
      by_cases hm0 : m = 0
      · subst hm0
        have hz : table_holds w (const_table w false) (fun _ => false) := by
          refine ⟨rfl, by simp [const_table], fun i hi => ?_⟩
          simp [List.getD_eq_getElem?_getD, const_table_getElem w false i hi]
        rcases hconst with h0 | h0
        · refine ⟨const_table w false, ?_, by simpa using hz⟩
          simp [pattern_t.has, h0, pattern_t.assign, default_simulator.compute_constant,
            zero_eq_const_table]
        · refine ⟨const_table w false, ?_, by simpa using hz⟩
          simp [pattern_t.has, h0]
      · obtain ⟨t, ht, hth⟩ := hpis (m - 1) (by omega)
        have e1 : m - 1 + 1 = m := by omega
        rw [e1] at ht
        have hle : m ≤ ntk.num_pis := by omega
        refine ⟨t, ?_, by simpa [hm0, hle] using hth⟩
        by_cases h0 : patterns.has 0 = true
        · simpa [h0] using ht
        · simp [h0, pattern_t.assign, hm0, ht]
    · intro m hm
      have hm0 : m ≠ 0 := by omega
      by_cases h0 : patterns.has 0 = true
      · simpa [h0] using hnone m hm
      · simp [h0, pattern_t.assign, hm0, hnone m hm]
  · exact hwf.1

/-! ## The equivalence oracle -/

theorem equivalent_fold (pos : List signal) (patterns : pattern_t) (check : Bool) :
    pos.foldl
      (fun check m =>
        if m.complement then
          if !is_const0 (unary_not (patterns.read m.index)) then false else check
        else
          if !is_const0 (patterns.read m.index) then false else check)
      check
    = (check && pos.all (fun m =>
        is_const0 (if m.complement then unary_not (patterns.read m.index)
                   else patterns.read m.index))) := by
  induction pos generalizing check with
  | nil => simp
  | cons m ms ih =>
    simp only [List.foldl_cons, List.all_cons]
    rw [ih]
    cases hc : m.complement <;> cases check <;>
      cases h1 : is_const0 (patterns.read m.index) <;>
      cases h2 : is_const0 (unary_not (patterns.read m.index)) <;> simp [h1, h2]

theorem equivalent_iff (net : network) (patterns : pattern_t) :
    equivalent net patterns = true ↔
      ∀ m ∈ net.pos,
        is_const0 (if m.complement then unary_not (patterns.read m.index)
                   else patterns.read m.index) = true := by
  unfold equivalent
  rw [equivalent_fold]
  simp [List.all_eq_true]

theorem is_const0_iff_forall (t : dynamic_truth_table) :
    is_const0 t = true ↔ ∀ i, i < t.bits.length → t.bits.getD i false = false := by
  unfold is_const0
  rw [List.all_eq_true, List.forall_mem_iff_getElem]
  constructor
  · intro h i hi
    rw [List.getD_eq_getElem _ _ hi]
    simpa using h i hi
  · intro h i hi
    have := h i hi
    rw [List.getD_eq_getElem _ _ hi] at this
    simpa using this

theorem is_const0_of_holds {w : Nat} {t : dynamic_truth_table} {V : Nat → Bool}
    (h : table_holds w t V) : is_const0 t = true ↔ ∀ i, i < 2 ^ w → V i = false := by
  rw [is_const0_iff_forall, h.2.1]
  constructor
  · intro hh i hi
    rw [← h.2.2 i hi]
    exact hh i hi
  · intro hh i hi
    rw [h.2.2 i hi]
    exact hh i hi

theorem unary_not_holds {w : Nat} {t : dynamic_truth_table} {V : Nat → Bool}
    (h : table_holds w t V) : table_holds w (unary_not t) (fun i => !V i) := by
  refine ⟨h.1, by simpa [unary_not] using h.2.1, fun i hi => ?_⟩
  have hlen : i < t.bits.length := by rw [h.2.1]; exact hi
  have := h.2.2 i hi
  rw [List.getD_eq_getElem _ _ hlen] at this
  simp [unary_not, List.getD_eq_getElem?_getD, List.getElem?_map,
    List.getElem?_eq_getElem hlen, this]

theorem equivalent_agrees (net : network) (w : Nat) (patterns : pattern_t)
    (V : Nat → Nat → Bool) (upto : Nat) (hs : store_agrees w patterns V upto)
    (hpos : ∀ m ∈ net.pos, m.index < upto) :
    equivalent net patterns = true ↔
      ∀ i, i < 2 ^ w → ∀ m ∈ net.pos, (V i m.index != m.complement) = false := by
  rw [equivalent_iff]
  constructor
  · intro h i hi m hm
    obtain ⟨t, ht, hth⟩ := hs.1 m.index (hpos m hm)
    have hm1 := h m hm
    rw [read_of_some ht] at hm1
    cases hc : m.complement
    · rw [hc] at hm1
      have := (is_const0_of_holds hth).1 (by simpa using hm1) i hi
      simpa using this
    · rw [hc] at hm1
      have := (is_const0_of_holds (unary_not_holds hth)).1 (by simpa using hm1) i hi
      simpa using this
  · intro h m hm
    obtain ⟨t, ht, hth⟩ := hs.1 m.index (hpos m hm)
    rw [read_of_some ht]
    cases hc : m.complement
    · simp only [Bool.false_eq_true, if_false]
      apply (is_const0_of_holds hth).2
      intro i hi
      have := h i hi m hm
      simpa [hc] using this
    · simp only [if_true]
      apply (is_const0_of_holds (unary_not_holds hth)).2
      intro i hi
      have := h i hi m hm
      simpa [hc] using this

/-! ## The shape of the store is kept by every operation -/

theorem simulate_gates_outside (sim : default_simulator) (gs : List gate) (n : Nat)
    (patterns : pattern_t) (m : Nat) (h : m < n ∨ n + gs.length ≤ m) :
    simulate_gates sim gs n patterns m = patterns m := by
  induction gs generalizing n patterns with
  | nil => simp [simulate_gates]
  | cons g gs ih =>
    simp only [simulate_gates]
    have hmn : m ≠ n := by
      simp only [List.length_cons] at h
      omega
    rw [ih]
    · by_cases hn : patterns.has n = true
      · simp [hn]
      · simp [hn, pattern_t.assign, hmn]
    · simp only [List.length_cons] at h
      omega

theorem settled_init (ntk : network) (split_var : Nat) :
    settled ntk split_var (init_patterns ntk split_var pattern_t.init) := by
  refine ⟨Or.inl ?_, ?_, ?_, ?_⟩
  · rw [init_patterns_apply]
    simp [pattern_t.init]
  · intro k hk hs
    have := init_patterns_pi ntk split_var pattern_t.init k hk
    simpa [network.pi_node, hs] using this
  · intro k hk hs
    have := init_patterns_pi ntk split_var pattern_t.init k hk
    have hn : ¬ k < split_var := by omega
    exact ⟨false, by simpa [network.pi_node, hn] using this⟩
  · intro m hm
    rw [init_patterns_apply]
    have : ¬ (1 ≤ m ∧ m ≤ ntk.num_pis) := by
      simp only [network.size] at hm
      omega
    simp [this, pattern_t.init]

theorem settled_free (ntk : network) (split_var : Nat) (patterns : pattern_t)
    (h : settled ntk split_var patterns) :
    settled ntk split_var (free ntk patterns) ∧
      ∀ m, ntk.num_pis + 1 ≤ m → free ntk patterns m = none := by
  obtain ⟨h0, h1, h2, h3⟩ := h
  have hlow : ∀ m, m ≤ ntk.num_pis → free ntk patterns m = patterns m := by
    intro m hm
    rw [free_apply]
    have : ¬ (ntk.num_pis + 1 ≤ m ∧ m < ntk.size) := by omega
    simp [this]
  have hhigh : ∀ m, ntk.num_pis + 1 ≤ m → free ntk patterns m = none := by
    intro m hm
    rw [free_apply]
    by_cases hs : m < ntk.size
    · simp [hm, hs]
    · have : ¬ (ntk.num_pis + 1 ≤ m ∧ m < ntk.size) := by omega
      simp only [this, if_false]
      exact h3 m (by omega)
  refine ⟨⟨?_, ?_, ?_, ?_⟩, hhigh⟩
  · rw [hlow 0 (by omega)]
    exact h0
  · intro k hk hs
    rw [hlow (k + 1) (by omega)]
    exact h1 k hk hs
  · intro k hk hs
    rw [hlow (k + 1) (by omega)]
    exact h2 k hk hs
  · intro m hm
    apply hhigh
    simp only [network.size] at hm
    omega

theorem update_pattern_other (ntk : network) (split_var : Nat) (patterns : pattern_t)
    (r m : Nat) (h : m = 0 ∨ m - 1 < split_var ∨ ntk.num_pis < m) :
    update_pattern ntk split_var patterns r m = patterns m := by
  rw [update_pattern_apply]
  have : ¬ (1 ≤ m ∧ split_var ≤ m - 1 ∧ m - 1 < ntk.num_pis) := by omega
  simp [this]

theorem update_pattern_const (ntk : network) (split_var : Nat) (patterns : pattern_t)
    (r k : Nat) (c : Bool) (hk : k < ntk.num_pis) (hs : split_var ≤ k)
    (h : patterns (k + 1) = some (const_table split_var c)) :
    update_pattern ntk split_var patterns r (k + 1)
      = some (const_table split_var (nth_bit r (k - split_var))) := by
  rw [update_pattern_apply]
  have h1 : 1 ≤ k + 1 ∧ split_var ≤ k + 1 - 1 ∧ k + 1 - 1 < ntk.num_pis := by
    refine ⟨by omega, by omega, by omega⟩
  rw [if_pos h1, updated_entry_const h]
  simp

theorem settled_update (ntk : network) (split_var : Nat) (patterns : pattern_t) (r : Nat)
    (h : settled ntk split_var patterns) :
    settled ntk split_var (update_pattern ntk split_var patterns r) := by
  obtain ⟨h0, h1, h2, h3⟩ := h
  refine ⟨?_, ?_, ?_, ?_⟩
  · rw [update_pattern_other _ _ _ _ _ (Or.inl rfl)]
    exact h0
  · intro k hk hs
    rw [update_pattern_other _ _ _ _ _ (Or.inr (Or.inl (by omega)))]
    exact h1 k hk hs
  · intro k hk hs
    obtain ⟨c, hc⟩ := h2 k hk hs
    exact ⟨_, update_pattern_const ntk split_var patterns r k c hk hs hc⟩
  · intro m hm
    rw [update_pattern_other _ _ _ _ _ (Or.inr (Or.inr (by
      simp only [network.size] at hm
      omega)))]
    exact h3 m hm

theorem settled_simulate (ntk : network) (split_var : Nat) (patterns : pattern_t)
    (h : settled ntk split_var patterns) :
    settled ntk split_var (simulate_nodes ntk patterns ⟨split_var⟩) := by
  obtain ⟨h0, h1, h2, h3⟩ := h
  refine ⟨Or.inr ?_, ?_, ?_, ?_⟩
  · rcases h0 with h0 | h0
    · unfold simulate_nodes
      rw [simulate_gates_outside _ _ _ _ _ (Or.inl (by omega))]
      simp [pattern_t.has, h0, pattern_t.assign, default_simulator.compute_constant,
        zero_eq_const_table]
    · exact simulate_nodes_preserve ntk _ patterns 0 _ h0
  · intro k hk hs
    exact simulate_nodes_preserve ntk _ patterns (k + 1) _ (h1 k hk hs)
  · intro k hk hs
    obtain ⟨c, hc⟩ := h2 k hk hs
    exact ⟨c, simulate_nodes_preserve ntk _ patterns (k + 1) _ hc⟩
  · intro m hm
    have hm1 : ntk.num_pis + 1 + ntk.gates.length ≤ m := by
      simp only [network.size] at hm
      omega
    unfold simulate_nodes
    rw [simulate_gates_outside _ _ _ _ _ (Or.inr hm1)]
    have hm0 : m ≠ 0 := by omega
    by_cases hh : patterns.has 0 = true
    · simpa [hh] using h3 m hm
    · simp [hh, pattern_t.assign, hm0, h3 m hm]

theorem reachable_settled (ntk : network) (split_var : Nat) (patterns : pattern_t)
    (h : reachable ntk split_var patterns) : settled ntk split_var patterns := by
  induction h with
  | init => exact settled_init ntk split_var
  | update p r _ ih => exact settled_update ntk split_var p r ih
  | simulate p _ ih => exact settled_simulate ntk split_var p ih
  | free p _ ih => exact (settled_free ntk split_var p ih).1

/-! ## One round of simulation decides its slice of the input space -/

theorem projection_table_holds (w k : Nat) :
    table_holds w (projection_table w k) (fun i => nth_bit i k) := by
  refine ⟨rfl, projection_table_length w k, fun i hi => ?_⟩
  simp [List.getD_eq_getElem?_getD, projection_table_getElem w k i hi]

theorem const_table_holds (w : Nat) (b : Bool) :
    table_holds w (const_table w b) (fun _ => b) := by
  refine ⟨rfl, by simp [const_table], fun i hi => ?_⟩
  simp [List.getD_eq_getElem?_getD, const_table_getElem w b i hi]

theorem ready_check (ntk : network) (split_var r : Nat) (patterns : pattern_t)
    (hwf : ntk.wf)
    (h0 : patterns 0 = none ∨ patterns 0 = some (const_table split_var false))
    (h1 : ∀ k, k < ntk.num_pis → k < split_var →
      patterns (k + 1) = some (projection_table split_var k))
    (h2 : ∀ k, k < ntk.num_pis → split_var ≤ k →
      patterns (k + 1) = some (const_table split_var (nth_bit r (k - split_var))))
    (h3 : ∀ m, ntk.num_pis + 1 ≤ m → patterns m = none) :
    equivalent ntk (simulate_nodes ntk patterns ⟨split_var⟩) = true ↔
      round_ok ntk split_var r := by
  have hag := simulate_nodes_agrees ntk split_var patterns
    (fun i => round_assignment split_var r i) hwf h0 (by
      intro k hk
      by_cases hs : k < split_var
      · refine ⟨_, h1 k hk hs, ?_⟩
        simpa [round_assignment, hs] using projection_table_holds split_var k
      · refine ⟨_, h2 k hk (by omega), ?_⟩
        simpa [round_assignment, hs] using
          const_table_holds split_var (nth_bit r (k - split_var))) h3
  rw [equivalent_agrees ntk split_var _ _ ntk.size hag hwf.2]
  rfl

theorem nth_bit_zero (k : Nat) : nth_bit 0 k = false := by
  simp [nth_bit]

theorem round_zero_check (ntk : network) (split_var : Nat) (hwf : ntk.wf) :
    equivalent ntk
        (simulate_nodes ntk (init_patterns ntk split_var pattern_t.init) ⟨split_var⟩) = true ↔
      round_ok ntk split_var 0 := by
  have hs := settled_init ntk split_var
  apply ready_check ntk split_var 0 _ hwf hs.1 hs.2.1
  · intro k hk hsk
    have := init_patterns_pi ntk split_var pattern_t.init k hk
    have hn : ¬ k < split_var := by omega
    simpa [network.pi_node, hn, nth_bit_zero] using this
  · intro m hm
    rw [init_patterns_apply]
    have : ¬ (1 ≤ m ∧ m ≤ ntk.num_pis) := by omega
    simp [this, pattern_t.init]

theorem round_check (ntk : network) (split_var r : Nat) (patterns : pattern_t)
    (hwf : ntk.wf) (hs : settled ntk split_var patterns) :
    equivalent ntk
        (simulate_nodes ntk (update_pattern ntk split_var (free ntk patterns) r)
          ⟨split_var⟩) = true ↔
      round_ok ntk split_var r := by
  obtain ⟨hf, hfnone⟩ := settled_free ntk split_var patterns hs
  have hu := settled_update ntk split_var _ r hf
  apply ready_check ntk split_var r _ hwf hu.1 hu.2.1
  · intro k hk hsk
    obtain ⟨c, hc⟩ := hf.2.2.1 k hk hsk
    exact update_pattern_const ntk split_var _ r k c hk hsk hc
  · intro m hm
    rw [update_pattern_other _ _ _ _ _ (Or.inr (Or.inr (by omega)))]
    exact hfnone m hm

/-! ## The round loop -/

theorem run_loop_verdict (ntk : network) (split_var : Nat) (hwf : ntk.wf)
    (count r : Nat) (patterns : pattern_t) (hs : settled ntk split_var patterns) :
    (run_loop ntk split_var ⟨split_var⟩ count r patterns).1 = true ↔
      ∀ q, r ≤ q → q < r + count → round_ok ntk split_var q := by
  induction count generalizing r patterns with
  | zero =>
    simp only [run_loop, true_iff]
    intro q h1 h2
    omega
  | succ count ih =>
    simp only [run_loop]
    have hround := round_check ntk split_var r patterns hwf hs
    have hnext : settled ntk split_var
        (simulate_nodes ntk (update_pattern ntk split_var (free ntk patterns) r)
          ⟨split_var⟩) :=
      settled_simulate _ _ _ (settled_update _ _ _ r (settled_free _ _ _ hs).1)
    by_cases he : equivalent ntk
        (simulate_nodes ntk (update_pattern ntk split_var (free ntk patterns) r)
          ⟨split_var⟩) = true
    · simp only [he, Bool.not_true, Bool.false_eq_true, if_false]
      rw [ih (r + 1) _ hnext]
      constructor
      · intro h q h1 h2
        by_cases hq : q = r
        · subst hq
          exact hround.1 he
        · exact h q (by omega) (by omega)
      · intro h q h1 h2
        exact h q (by omega) (by omega)
    · have he2 : equivalent ntk
          (simulate_nodes ntk (update_pattern ntk split_var (free ntk patterns) r)
            ⟨split_var⟩) = false := by simpa using he
      simp only [he2, Bool.not_false, if_true, Bool.false_eq_true, false_iff]
      intro h
      exact he (hround.2 (h r (Nat.le_refl r) (by omega)))

theorem run_rounds_verdict (ntk : network) (split_var rounds : Nat) (hwf : ntk.wf) :
    (run_rounds ntk split_var rounds).1 = true ↔
      round_ok ntk split_var 0 ∧ ∀ q, 1 ≤ q → q < rounds → round_ok ntk split_var q := by
  simp only [run_rounds]
  have h0 := round_zero_check ntk split_var hwf
  have hnext : settled ntk split_var
      (simulate_nodes ntk (init_patterns ntk split_var pattern_t.init) ⟨split_var⟩) :=
    settled_simulate _ _ _ (settled_init ntk split_var)
  by_cases he : equivalent ntk
      (simulate_nodes ntk (init_patterns ntk split_var pattern_t.init) ⟨split_var⟩) = true
  · simp only [he, Bool.not_true, Bool.false_eq_true, if_false]
    rw [run_loop_verdict ntk split_var hwf (rounds - 1) 1 _ hnext]
    constructor
    · intro h
      exact ⟨h0.1 he, fun q h1 h2 => h q h1 (by omega)⟩
    · intro h q h1 h2
      exact h.2 q h1 (by omega)
  · have he2 : equivalent ntk
        (simulate_nodes ntk (init_patterns ntk split_var pattern_t.init) ⟨split_var⟩)
          = false := by simpa using he
    simp only [he2, Bool.not_false, if_true, Bool.false_eq_true, false_iff]
    intro h
    exact he (h0.2 h.1)

/-! ## The rounds together cover the input space -/

theorem round_assignment_eq (split_var r i : Nat) (hi : i < 2 ^ split_var) :
    round_assignment split_var r i = input_combination (2 ^ split_var * r + i) := by
  funext k
  simp only [round_assignment, input_combination, nth_bit_eq_testBit]
  rw [Nat.testBit_mul_pow_two_add r hi k]

theorem brute_force_iff (ntk : network) :
    brute_force ntk = true ↔
      ∀ x, x < 2 ^ ntk.num_pis → ∀ m ∈ ntk.pos,
        po_value ntk (input_combination x) m = false := by
  simp [brute_force, List.all_eq_true]

theorem rounds_cover (ntk : network) (split_var : Nat) (hs : split_var ≤ ntk.num_pis) :
    (∀ q, q < 2 ^ (ntk.num_pis - split_var) → round_ok ntk split_var q) ↔
      ∀ x, x < 2 ^ ntk.num_pis → ∀ m ∈ ntk.pos,
        po_value ntk (input_combination x) m = false := by
  have hpow : 2 ^ ntk.num_pis = 2 ^ split_var * 2 ^ (ntk.num_pis - split_var) := by
    rw [← pow_add]
    congr 1
    omega
  constructor
  · intro h x hx m hm
    have hq : x / 2 ^ split_var < 2 ^ (ntk.num_pis - split_var) := by
      rw [Nat.div_lt_iff_lt_mul (by positivity)]
      rw [hpow, Nat.mul_comm] at hx
      exact hx
    have hi : x % 2 ^ split_var < 2 ^ split_var := Nat.mod_lt _ (by positivity)
    have := h _ hq _ hi m hm
    rw [round_assignment_eq _ _ _ hi, Nat.div_add_mod] at this
    exact this
  · intro h q hq i hi m hm
    rw [round_assignment_eq _ _ _ hi]
    apply h _ _ m hm
    rw [hpow]
    calc 2 ^ split_var * q + i
        < 2 ^ split_var * q + 2 ^ split_var := by omega
      _ = 2 ^ split_var * (q + 1) := by ring
      _ ≤ 2 ^ split_var * 2 ^ (ntk.num_pis - split_var) :=
          Nat.mul_le_mul_left _ hq

theorem run_rounds_correct (ntk : network) (split_var : Nat) (hwf : ntk.wf)
    (hs : split_var ≤ ntk.num_pis) :
    (run_rounds ntk split_var (2 ^ (ntk.num_pis - split_var))).1 = brute_force ntk := by
  rw [Bool.eq_iff_iff, run_rounds_verdict ntk split_var _ hwf, brute_force_iff,
    ← rounds_cover ntk split_var hs]
  constructor
  · intro h q hq
    by_cases h0 : q = 0
    · subst h0
      exact h.1
    · exact h.2 q (by omega) hq
  · intro h
    exact ⟨h 0 (by positivity), fun q _ hq => h q hq⟩

/-! ## The splitting heuristic -/

theorem log2_halving_eq (fuel x : Nat) (h : x < 2 ^ fuel) :
    log2_halving fuel x = Nat.log 2 x := by
  induction fuel generalizing x with
  | zero =>
    have : x = 0 := by simpa using h
    subst this
    simp [log2_halving]
  | succ fuel ih =>
    simp only [log2_halving]
    by_cases hx : x < 2
    · simp [hx, Nat.log_of_lt hx]
    · have hx2 : 2 ≤ x := by omega
      rw [if_neg hx, ih (x / 2) (by
        rw [Nat.div_lt_iff_lt_mul (by decide)]
        rw [pow_succ] at h
        exact h)]
      rw [Nat.log_of_one_lt_of_le (by decide) hx2]

theorem compute_splitting_var_le (n v : Nat) : compute_splitting_var n v ≤ n := by
  unfold compute_splitting_var
  by_cases h : n ≤ 6
  · simp [h]
  · simp only [h, if_false]
    exact Nat.min_le_left _ _

theorem compute_rounds_eq (n m : Nat) (hm : m ≤ n) (hn : n - m < 32) :
    compute_rounds n m = 2 ^ (n - m) := by
  unfold compute_rounds
  have e : (n + 2 ^ 32 - m) % 2 ^ 32 % 32 = n - m := by omega
  simp only [e, Nat.shiftLeft_eq, Nat.one_mul]
  apply Nat.mod_eq_of_lt
  exact Nat.pow_lt_pow_right (by decide) hn

theorem compute_rounds_pos (n m : Nat) : 1 ≤ compute_rounds n m := by
  unfold compute_rounds
  have hk : (n + 2 ^ 32 - m) % 2 ^ 32 % 32 < 32 := Nat.mod_lt _ (by decide)
  simp only [Nat.shiftLeft_eq, Nat.one_mul]
  rw [Nat.mod_eq_of_lt (Nat.pow_lt_pow_right (by decide) hk)]
  exact Nat.one_le_two_pow

/-! ## Entry point: size limit and miter failure -/

/-- C3: when the first network has more than 40 primary inputs,
`simulation_cec` returns nullopt, the miter is not built, no simulation pass
runs, and the caller's statistics handle is neither written nor changed. -/
theorem simulation_cec_size_limit (mit : network → network → Option network)
    (ntk1 ntk2 : network) (pst : Option simulation_cec_stats) (h : 40 < ntk1.num_pis) :
    (simulation_cec mit ntk1 ntk2 pst).result = none ∧
    (simulation_cec mit ntk1 ntk2 pst).miter_calls = 0 ∧
    (simulation_cec mit ntk1 ntk2 pst).passes = 0 ∧
    (simulation_cec mit ntk1 ntk2 pst).pst_written = false ∧
    (simulation_cec mit ntk1 ntk2 pst).pst = pst := by
  simp [simulation_cec, h]

theorem simulation_cec_size_limit_witness :
    40 < (wire_network 41).num_pis ∧
    (simulation_cec miter (wire_network 41) (wire_network 41) (some ⟨7, 7⟩)).result = none ∧
    (simulation_cec miter (wire_network 41) (wire_network 41) (some ⟨7, 7⟩)).miter_calls = 0 ∧
    (simulation_cec miter (wire_network 41) (wire_network 41) (some ⟨7, 7⟩)).passes = 0 ∧
    (simulation_cec miter (wire_network 41) (wire_network 41) (some ⟨7, 7⟩)).pst_written
      = false ∧
    (simulation_cec miter (wire_network 41) (wire_network 41) (some ⟨7, 7⟩)).pst
      = some ⟨7, 7⟩ :=
  ⟨by decide,
    simulation_cec_size_limit miter (wire_network 41) (wire_network 41) (some ⟨7, 7⟩)
      (by decide)⟩

/-- C4 as stated fails: the second network has 41 primary inputs, the first
has 40, and the result is a boolean verdict (false), not nullopt. -/
theorem second_network_41_gets_verdict :
    (wire_network 41).num_pis = 41 ∧
    (simulation_cec miter (wire_network 40) (wire_network 41) none).result = some false := by
  decide

/-- C4, amended: `simulation_cec` returns nullopt exactly when the first
network has more than 40 primary inputs (so for every pair whose first network
has 41), whatever the second network, the miter and the functions computed. -/
theorem simulation_cec_nullopt_iff (mit : network → network → Option network)
    (ntk1 ntk2 : network) (pst : Option simulation_cec_stats) :
    (simulation_cec mit ntk1 ntk2 pst).result = none ↔ 40 < ntk1.num_pis := by
  unfold simulation_cec
  by_cases h : 40 < ntk1.num_pis
  · simp [h]
  · cases hm : mit ntk1 ntk2 <;> simp [h]

/-- C5 as stated fails: the miter of a 1-input and a 2-input network has no
value, and the result is the optional holding false, not nullopt. -/
theorem miter_failure_gets_false :
    (wire_network 1).num_pis ≤ 40 ∧
    miter (wire_network 1) (wire_network 2) = none ∧
    (simulation_cec miter (wire_network 1) (wire_network 2) none).result = some false ∧
    (simulation_cec miter (wire_network 1) (wire_network 2) none).result ≠ none :=
  ⟨by decide, rfl, by decide, by decide⟩

/-- C5, amended: when the first network has at most 40 primary inputs and
miter construction returns no value, `simulation_cec` returns the optional
holding false; no simulation pass runs, and a supplied statistics handle
receives the zero-initialised statistics. -/
theorem simulation_cec_miter_failure (mit : network → network → Option network)
    (ntk1 ntk2 : network) (pst : Option simulation_cec_stats)
    (h : ntk1.num_pis ≤ 40) (hm : mit ntk1 ntk2 = none) :
    (simulation_cec mit ntk1 ntk2 pst).result = some false ∧
    (simulation_cec mit ntk1 ntk2 pst).passes = 0 ∧
    (simulation_cec mit ntk1 ntk2 pst).pst = pst.map (fun _ => ⟨0, 0⟩) := by
  have h1 : ¬ 40 < ntk1.num_pis := by omega
  simp [simulation_cec, h1, hm]

theorem simulation_cec_miter_failure_witness :
    (simulation_cec miter (wire_network 2) (wire_network 3) (some ⟨7, 7⟩)).result
      = some false ∧
    (simulation_cec miter (wire_network 2) (wire_network 3) (some ⟨7, 7⟩)).passes = 0 ∧
    (simulation_cec miter (wire_network 2) (wire_network 3) (some ⟨7, 7⟩)).pst
      = (some (⟨7, 7⟩ : simulation_cec_stats)).map (fun _ => ⟨0, 0⟩) :=
  simulation_cec_miter_failure miter (wire_network 2) (wire_network 3) (some ⟨7, 7⟩)
    (by decide) rfl

/-! ## The splitting heuristic against the formula of the specification -/

theorem floor_logb_quotient (v : Nat) (hx : (1 : ℝ) ≤ 2 ^ 29 / (v : ℝ) - 32) :
    33 ≤ 2 ^ 29 / v ∧
    ⌊Real.logb 2 (2 ^ 29 / (v : ℝ) - 32)⌋ = ((Nat.log 2 (2 ^ 29 / v - 32) : Nat) : ℤ) := by
  have hfl : ⌊(2 : ℝ) ^ 29 / (v : ℝ) - 32⌋₊ = 2 ^ 29 / v - 32 := by
    have h1 : ((2 : ℝ) ^ 29 / (v : ℝ) - 32) = (((2 ^ 29 : ℕ) : ℝ) / (v : ℝ)) - ((32 : ℕ) : ℝ) := by
      push_cast
      ring
    rw [h1, Nat.floor_sub_nat, Nat.floor_div_eq_div]
  have hq : 33 ≤ 2 ^ 29 / v := by
    have h2 : (1 : ℕ) ≤ ⌊(2 : ℝ) ^ 29 / (v : ℝ) - 32⌋₊ := by
      rw [Nat.le_floor_iff (by linarith)]
      simpa using hx
    rw [hfl] at h2
    omega
  refine ⟨hq, ?_⟩
  have h0 : (0 : ℝ) ≤ 2 ^ 29 / (v : ℝ) - 32 := by linarith
  have h3 := Real.floor_logb_natCast (b := 2) h0
  simp only [Nat.cast_ofNat] at h3
  rw [h3, Int.log_of_one_le_right 2 hx, hfl]

/-- C7: `compute_splitting_var` returns `n` when `n ≤ 6`, whatever the node
count; and for `n > 6` and a node count `v ≥ 1` with `2^29/v - 32 ≥ 1` (real
quotient) it returns `min(n, floor(log2(2^29/v - 32)) + 3)`, the value of the
formula of the specification. -/
theorem compute_splitting_var_formula (n v : Nat) :
    (n ≤ 6 → compute_splitting_var n v = n) ∧
    (6 < n → 1 ≤ v → (1 : ℝ) ≤ 2 ^ 29 / (v : ℝ) - 32 →
      ((compute_splitting_var n v : Nat) : ℤ)
        = min (n : ℤ) (⌊Real.logb 2 (2 ^ 29 / (v : ℝ) - 32)⌋ + 3)) := by
  constructor
  · intro h
    simp [compute_splitting_var, h]
  · intro hn _ hx
    obtain ⟨hq, hfloor⟩ := floor_logb_quotient v hx
    have hle : 2 ^ 29 / v ≤ 2 ^ 29 := Nat.div_le_self _ _
    have hwrap : (2 ^ 29 / v + 2 ^ 32 - 32) % 2 ^ 32 = 2 ^ 29 / v - 32 := by omega
    have hne : 2 ^ 29 / v - 32 ≠ 0 := by omega
    have hlt : 2 ^ 29 / v - 32 < 2 ^ 32 := by omega
    have hnot : ¬ n ≤ 6 := by omega
    have hval : compute_splitting_var n v = min n (Nat.log 2 (2 ^ 29 / v - 32) + 3) := by
      simp only [compute_splitting_var, hnot, if_false, hwrap, log2_plus3_u32, hne,
        log2_halving_eq 32 _ hlt]
    rw [hval, hfloor]
    push_cast
    rfl

theorem compute_splitting_var_formula_witness :
    ((compute_splitting_var 40 1000 : Nat) : ℤ)
      = min ((40 : Nat) : ℤ) (⌊Real.logb 2 (2 ^ 29 / ((1000 : Nat) : ℝ) - 32)⌋ + 3) :=
  (compute_splitting_var_formula 40 1000).2 (by decide) (by decide) (by norm_num)

/-- C8 fails on the code: for 40 primary inputs and 5592406 nodes the
splitting variable is 8, so `2 ^ (n - split_var)` is `2 ^ 32`, which the
32-bit shift of `compute_rounds` cannot hold; the computed value is 1. -/
theorem compute_rounds_wraps :
    compute_splitting_var 40 5592406 = 8 ∧
    compute_rounds 40 (compute_splitting_var 40 5592406) = 1 ∧
    2 ^ (40 - compute_splitting_var 40 5592406) = 4294967296 := by
  decide

/-! ## Pattern initialisation and the round update -/

/-- C9: after `init_patterns( network, split_var, store )` every primary input
has an entry of `2 ^ split_var` bits; for the input at ordinal
`k < split_var` bit `i` of the entry is bit `k` of `i`, and for every input at
ordinal `k ≥ split_var` the entry is the all-zero constant. -/
theorem init_patterns_entries (net : network) (split_var : Nat) (patterns : pattern_t)
    (k : Nat) (hk : k < net.num_pis) :
    ∃ tt, init_patterns net split_var patterns (net.pi_node k) = some tt ∧
      tt.num_vars = split_var ∧ tt.bits.length = 2 ^ split_var ∧
      (k < split_var → ∀ i, i < 2 ^ split_var → tt.bits[i]? = some (i.testBit k)) ∧
      (split_var ≤ k → tt = const_table split_var false ∧ is_const0 tt = true ∧
        ∀ i, i < 2 ^ split_var → tt.bits[i]? = some false) := by
  refine ⟨_, init_patterns_pi net split_var patterns k hk, ?_, ?_, ?_, ?_⟩
  · by_cases h : k < split_var <;> simp [h, projection_table, create_nth_var,
      dynamic_truth_table.zero, const_table]
  · by_cases h : k < split_var <;> simp [h, projection_table_length, const_table]
  · intro h i hi
    rw [if_pos h, projection_table_getElem split_var k i hi, nth_bit_eq_testBit]
  · intro h
    have hn : ¬ k < split_var := by omega
    rw [if_neg hn]
    refine ⟨rfl, by simp [is_const0_const_table], fun i hi => ?_⟩
    exact const_table_getElem split_var false i hi

theorem init_patterns_entries_witness :
    ∃ tt, init_patterns (wire_network 3) 2 pattern_t.init ((wire_network 3).pi_node 1)
        = some tt ∧
      tt.num_vars = 2 ∧ tt.bits.length = 2 ^ 2 ∧
      (1 < 2 → ∀ i, i < 2 ^ 2 → tt.bits[i]? = some (i.testBit 1)) ∧
      (2 ≤ 1 → tt = const_table 2 false ∧ is_const0 tt = true ∧
        ∀ i, i < 2 ^ 2 → tt.bits[i]? = some false) :=
  init_patterns_entries (wire_network 3) 2 pattern_t.init 1 (by decide)

/-- C10: on every store reached from `init_patterns` by earlier calls of
`update_pattern` (and of the simulation engine and `free`), after
`update_pattern( store, r )` the pattern of each primary input at ordinal
`k ≥ split_var` is the all-ones constant if bit `k - split_var` of `r` is 1
and the all-zero constant if it is 0, whatever the previous round left. -/
theorem update_pattern_assigns_round_bits (ntk : network) (split_var : Nat)
    (patterns : pattern_t) (r k : Nat) (hreach : reachable ntk split_var patterns)
    (hk : k < ntk.num_pis) (hs : split_var ≤ k) :
    update_pattern ntk split_var patterns r (ntk.pi_node k)
      = some (const_table split_var (r.testBit (k - split_var))) := by
  obtain ⟨c, hc⟩ := (reachable_settled ntk split_var patterns hreach).2.2.1 k hk hs
  rw [← nth_bit_eq_testBit]
  exact update_pattern_const ntk split_var patterns r k c hk hs hc

theorem update_pattern_assigns_round_bits_witness :
    update_pattern (wire_network 3) 1
        (update_pattern (wire_network 3) 1 (init_patterns (wire_network 3) 1 pattern_t.init) 3)
        1 ((wire_network 3).pi_node 2)
      = some (const_table 1 (Nat.testBit 1 (2 - 1))) :=
  update_pattern_assigns_round_bits (wire_network 3) 1 _ 1 2
    (reachable.update _ 3 reachable.init) (by decide) (by decide)

/-! ## Reference semantics: structural facts -/

theorem eval_gates_outside (gs : List gate) (n : Nat) (val : Nat → Bool) (m : Nat)
    (h : m < n ∨ n + gs.length ≤ m) : eval_gates gs n val m = val m := by
  induction gs generalizing n val with
  | nil => simp [eval_gates]
  | cons g gs ih =>
    simp only [eval_gates]
    simp only [List.length_cons] at h
    rw [ih _ _ (by omega)]
    have hmn : m ≠ n := by omega
    simp [hmn]

theorem eval_gates_append (l1 l2 : List gate) (n : Nat) (val : Nat → Bool) :
    eval_gates (l1 ++ l2) n val = eval_gates l2 (n + l1.length) (eval_gates l1 n val) := by
  induction l1 generalizing n val with
  | nil => simp [eval_gates]
  | cons g gs ih =>
    rw [List.cons_append]
    simp only [eval_gates, List.length_cons]
    rw [ih]
    have e : n + 1 + gs.length = n + (gs.length + 1) := by omega
    rw [e]

theorem topological_append (l1 l2 : List gate) (n : Nat) :
    topological (l1 ++ l2) n ↔ topological l1 n ∧ topological l2 (n + l1.length) := by
  induction l1 generalizing n with
  | nil => simp [topological]
  | cons g gs ih =>
    rw [List.cons_append]
    simp only [topological, List.length_cons]
    rw [ih]
    have e : n + 1 + gs.length = n + (gs.length + 1) := by omega
    rw [e]
    tauto

/-! ## The chain network -/

theorem chain_gates_length (prev len : Nat) : (chain_gates prev len).length = len := by
  induction len generalizing prev with
  | zero => simp [chain_gates]
  | succ len ih => simp [chain_gates, ih]

theorem chain_gates_topological (prev len : Nat) (hp : 1 ≤ prev) :
    topological (chain_gates prev len) (prev + 1) := by
  induction len generalizing prev with
  | zero => simp [chain_gates, topological]
  | succ len ih =>
    simp only [chain_gates, topological]
    refine ⟨?_, ih (prev + 1) (by omega)⟩
    intro f hf
    simp only [List.mem_cons, List.mem_singleton, List.not_mem_nil, or_false] at hf
    rcases hf with rfl | rfl
    · show prev < prev + 1
      omega
    · show 1 < prev + 1
      omega

theorem chain_gates_eval (prev len : Nat) (val : Nat → Bool) (hp : 1 ≤ prev) :
    eval_gates (chain_gates prev len) (prev + 1) val (prev + len)
      = (val prev && (decide (len = 0) || val 1)) := by
  induction len generalizing prev val with
  | zero => simp [chain_gates, eval_gates]
  | succ len ih =>
    simp only [chain_gates, eval_gates]
    have e : prev + (len + 1) = prev + 1 + len := by omega
    rw [e, ih (prev + 1) _ (by omega)]
    have h1 : (1 : Nat) ≠ prev + 1 := by omega
    have h2 : prev ≠ prev + 1 := by omega
    simp only [if_true, if_neg h1, List.map_cons, List.map_nil, if_neg h2]
    cases val prev <;> cases val 1 <;> simp [and_fn]

theorem chain_network_size (len : Nat) : (chain_network len).size = 41 + len := by
  simp only [chain_network, network.size, chain_gates_length]

theorem chain_network_wf (len : Nat) : (chain_network len).wf := by
  constructor
  · exact chain_gates_topological 40 len (by decide)
  · intro m hm
    rw [chain_network_size]
    simp only [chain_network, List.mem_singleton] at hm
    subst hm
    show 40 + len < 41 + len
    omega

theorem chain_network_value (len : Nat) (a : Nat → Bool) :
    node_values (chain_network len) a (40 + len) = (a 39 && (decide (len = 0) || a 0)) := by
  unfold node_values
  show eval_gates (chain_gates 40 len) (40 + 1) _ (40 + len) = _
  rw [chain_gates_eval 40 len _ (by decide)]
  have e : (chain_network len).num_pis = 40 := rfl
  simp [e]

/-! ## The driver -/

theorem compute_rounds_self (n : Nat) : compute_rounds n n = 1 := by
  unfold compute_rounds
  have e : (n + 2 ^ 32 - n) % 2 ^ 32 % 32 = 0 := by omega
  simp [e]

theorem run_rounds_one_pass (ntk : network) (split_var : Nat) :
    (run_rounds ntk split_var 1).2 = 1 := by
  simp only [run_rounds]
  split <;> simp [run_loop]

theorem run_verdict_of_no_wrap (ntk : network) (st : simulation_cec_stats) (hwf : ntk.wf)
    (h : ntk.num_pis - compute_splitting_var ntk.num_pis (ntk.size % 2 ^ 32) < 32) :
    (simulation_cec_impl.run ⟨ntk, st⟩).verdict = brute_force ntk := by
  have hle := compute_splitting_var_le ntk.num_pis (ntk.size % 2 ^ 32)
  simp only [simulation_cec_impl.run]
  rw [compute_rounds_eq _ _ hle h]
  exact run_rounds_correct ntk _ hwf hle

/-- C2: for a network with at most 6 primary inputs `run` uses
`split_var = n` and exactly one round (one simulation pass), and its verdict
equals the brute-force check over all `2 ^ n` input combinations. -/
theorem run_small_is_brute_force (ntk : network) (st : simulation_cec_stats)
    (hwf : ntk.wf) (hn : ntk.num_pis ≤ 6) :
    (simulation_cec_impl.run ⟨ntk, st⟩).st.split_var = ntk.num_pis ∧
    (simulation_cec_impl.run ⟨ntk, st⟩).st.rounds = 1 ∧
    (simulation_cec_impl.run ⟨ntk, st⟩).passes = 1 ∧
    (simulation_cec_impl.run ⟨ntk, st⟩).verdict = brute_force ntk := by
  have hs : compute_splitting_var ntk.num_pis (ntk.size % 2 ^ 32) = ntk.num_pis := by
    simp [compute_splitting_var, hn]
  refine ⟨?_, ?_, ?_, ?_⟩
  · simp only [simulation_cec_impl.run, hs]
  · simp only [simulation_cec_impl.run, hs, compute_rounds_self]
  · simp only [simulation_cec_impl.run, hs, compute_rounds_self, run_rounds_one_pass]
  · apply run_verdict_of_no_wrap ntk st hwf
    rw [hs]
    omega

theorem and_or_miter_wf : and_or_miter.wf := by
  simp [network.wf, topological, and_or_miter, network.size]

theorem run_small_is_brute_force_witness :
    (simulation_cec_impl.run ⟨and_or_miter, ⟨0, 0⟩⟩).st.split_var = 2 ∧
    (simulation_cec_impl.run ⟨and_or_miter, ⟨0, 0⟩⟩).st.rounds = 1 ∧
    (simulation_cec_impl.run ⟨and_or_miter, ⟨0, 0⟩⟩).passes = 1 ∧
    (simulation_cec_impl.run ⟨and_or_miter, ⟨0, 0⟩⟩).verdict = brute_force and_or_miter :=
  run_small_is_brute_force and_or_miter ⟨0, 0⟩ and_or_miter_wf (by decide)

theorem and_or_miter_rejected :
    (simulation_cec_impl.run ⟨and_or_miter, ⟨0, 0⟩⟩).verdict = false ∧
    (simulation_cec miter and2_network or2_network none).result = some false := by
  decide

theorem run_with_wrapped_rounds (ntk : network) (st : simulation_cec_stats) (hwf : ntk.wf)
    (hn : ntk.num_pis = 40) (hsize : ntk.size = 5592406) (h0 : round_ok ntk 8 0) :
    (simulation_cec_impl.run ⟨ntk, st⟩).st = ⟨8, 1⟩ ∧
    (simulation_cec_impl.run ⟨ntk, st⟩).verdict = true := by
  have hs : compute_splitting_var 40 (ntk.size % 2 ^ 32) = 8 := by
    rw [hsize]
    decide
  have hr : compute_rounds 40 8 = 1 := by decide
  constructor
  · simp only [simulation_cec_impl.run, hn, hs, hr]
  · simp only [simulation_cec_impl.run, hn, hs, hr]
    exact (run_rounds_verdict ntk 8 1 hwf).2 ⟨h0, fun q h1 h2 => by omega⟩

/-- C1 fails on the code: the chain network has 40 primary inputs and 5592406
nodes, its output is 1 when the last and the first input are 1, and `run`
returns true: the splitting variable is 8, the round count `2 ^ 32` does not
fit 32 bits (the shift `1 << 32` yields 1), and only round 0 is simulated. -/
theorem run_accepts_inequivalent_chain :
    long_chain_network.wf ∧ long_chain_network.num_pis = 40 ∧
    long_chain_network.size = 5592406 ∧
    (simulation_cec_impl.run ⟨long_chain_network, ⟨0, 0⟩⟩).st = ⟨8, 1⟩ ∧
    (simulation_cec_impl.run ⟨long_chain_network, ⟨0, 0⟩⟩).verdict = true ∧
    po_value long_chain_network (input_combination (2 ^ 39 + 1)) ⟨40 + 5592365, false⟩
      = true ∧
    brute_force long_chain_network = false := by
  have hsize : long_chain_network.size = 5592406 := by
    unfold long_chain_network
    rw [chain_network_size]
  have hwf : long_chain_network.wf := chain_network_wf 5592365
  have hn : long_chain_network.num_pis = 40 := rfl
  have hval : ∀ a : Nat → Bool,
      po_value long_chain_network a ⟨40 + 5592365, false⟩ = (a 39 && a 0) := by
    intro a
    unfold po_value long_chain_network
    simp only [chain_network_value 5592365 a]
    simp
  have hpos : long_chain_network.pos = [⟨40 + 5592365, false⟩] := rfl
  have hone : po_value long_chain_network (input_combination (2 ^ 39 + 1))
      ⟨40 + 5592365, false⟩ = true := by
    rw [hval]
    decide
  have h0 : round_ok long_chain_network 8 0 := by
    intro i _ m hm
    rw [hpos, List.mem_singleton] at hm
    subst hm
    rw [hval]
    have : round_assignment 8 0 i 39 = false := by
      simp [round_assignment, nth_bit_zero]
    simp [this]
  have hrun := run_with_wrapped_rounds long_chain_network ⟨0, 0⟩ hwf hn hsize h0
  refine ⟨hwf, hn, hsize, hrun.1, hrun.2, hone, ?_⟩
  cases hb : brute_force long_chain_network
  · rfl
  · have h := (brute_force_iff long_chain_network).1 hb (2 ^ 39 + 1)
      (by rw [hn]; decide) ⟨40 + 5592365, false⟩ (by rw [hpos]; simp)
    rw [hone] at h
    exact absurd h (by decide)

/-! ## The miter computes the XOR of corresponding outputs -/

theorem eval_gates_shifted (np d : Nat) (gs : List gate) (n : Nat) (val val2 : Nat → Bool)
    (hn : np < n) (htop : topological gs n)
    (hag : ∀ m, m < n → val2 (shift_index np d m) = val m) :
    ∀ m, m < n + gs.length →
      eval_gates (gs.map (shift_gate np d)) (n + d) val2 (shift_index np d m)
        = eval_gates gs n val m := by
  induction gs generalizing n val val2 with
  | nil =>
    intro m hm
    simpa [eval_gates] using hag m (by simpa using hm)
  | cons g gs ih =>
    intro m hm
    simp only [List.map_cons, eval_gates]
    have e : n + d + 1 = n + 1 + d := by omega
    rw [e]
    apply ih (n + 1) _ _ (by omega) htop.2
    · intro k hk
      have hfan : (shift_gate np d g).fn
            ((shift_gate np d g).fanin.map (fun f => val2 f.index != f.complement))
          = g.fn (g.fanin.map (fun f => val f.index != f.complement)) := by
        simp only [shift_gate, List.map_map]
        congr 1
        apply List.map_congr_left
        intro f hf
        simp only [Function.comp, miter_shift]
        rw [hag f.index (htop.1 f hf)]
      by_cases hkn : k = n
      · subst hkn
        have e1 : shift_index np d k = k + d := by
          simp only [shift_index]
          rw [if_neg (by omega)]
        rw [e1, if_pos rfl, if_pos rfl, hfan]
      · have e1 : shift_index np d k ≠ n + d := by
          simp only [shift_index]
          split <;> omega
        rw [if_neg e1, if_neg hkn]
        exact hag k (by omega)
    · simp only [List.length_cons] at hm
      omega

theorem eval_gates_flat (gs : List gate) (n : Nat) (val : Nat → Bool)
    (hfan : ∀ g ∈ gs, ∀ f ∈ g.fanin, f.index < n) (j : Nat) (g : gate)
    (hg : gs[j]? = some g) :
    eval_gates gs n val (n + j) = g.fn (g.fanin.map (fun f => val f.index != f.complement)) := by
  induction gs generalizing n val j with
  | nil => simp at hg
  | cons g0 gs ih =>
    simp only [eval_gates]
    cases j with
    | zero =>
      simp only [List.getElem?_cons_zero, Option.some.injEq] at hg
      subst hg
      rw [eval_gates_outside _ _ _ _ (Or.inl (by omega))]
      simp
    | succ j =>
      simp only [List.getElem?_cons_succ] at hg
      have e : n + (j + 1) = n + 1 + j := by omega
      rw [e, ih (n + 1) _ (fun g1 h1 f hf => by
        have := hfan g1 (List.mem_cons_of_mem _ h1) f hf
        omega) j hg]
      congr 1
      apply List.map_congr_left
      intro f hf
      have hlt : f.index < n :=
        hfan g (List.mem_cons_of_mem _ (List.mem_iff_getElem?.2 ⟨j, hg⟩)) f hf
      have hne : f.index ≠ n := by omega
      simp [hne]

theorem topological_of_flat (gs : List gate) (n : Nat)
    (hfan : ∀ g ∈ gs, ∀ f ∈ g.fanin, f.index < n) : topological gs n := by
  induction gs generalizing n with
  | nil => simp [topological]
  | cons g gs ih =>
    refine ⟨hfan g (List.mem_cons_self _ _), ih (n + 1) (fun g1 h1 f hf => ?_)⟩
    have := hfan g1 (List.mem_cons_of_mem _ h1) f hf
    omega

theorem topological_shifted (np d : Nat) (gs : List gate) (n : Nat) (hn : np < n)
    (htop : topological gs n) : topological (gs.map (shift_gate np d)) (n + d) := by
  induction gs generalizing n with
  | nil => simp [topological]
  | cons g gs ih =>
    simp only [List.map_cons, topological]
    constructor
    · intro f hf
      simp only [shift_gate, List.mem_map] at hf
      obtain ⟨f0, hf0, rfl⟩ := hf
      have := htop.1 f0 hf0
      simp only [miter_shift, shift_index]
      split <;> omega
    · have e : n + d + 1 = n + 1 + d := by omega
      rw [e]
      exact ih (n + 1) (by omega) htop.2

theorem mem_zipWith_elim {α β γ : Type} (f : α → β → γ) (l1 : List α) (l2 : List β) (c : γ)
    (h : c ∈ List.zipWith f l1 l2) : ∃ a ∈ l1, ∃ b ∈ l2, c = f a b := by
  induction l1 generalizing l2 with
  | nil => simp at h
  | cons a as ih =>
    cases l2 with
    | nil => simp at h
    | cons b bs =>
      simp only [List.zipWith_cons_cons, List.mem_cons] at h
      rcases h with h | h
      · exact ⟨a, List.mem_cons_self _ _, b, List.mem_cons_self _ _, h⟩
      · obtain ⟨a1, ha1, b1, hb1, hc⟩ := ih bs h
        exact ⟨a1, List.mem_cons_of_mem _ ha1, b1, List.mem_cons_of_mem _ hb1, hc⟩

theorem miter_xors_fanin (ntk1 ntk2 : network) (h1 : ntk1.wf) (h2 : ntk2.wf)
    (hn : ntk1.num_pis = ntk2.num_pis) :
    ∀ g ∈ miter_xors ntk1 ntk2, ∀ f ∈ g.fanin,
      f.index < ntk1.num_pis + 1 + (ntk1.gates.length + ntk2.gates.length) := by
  intro g hg f hf
  obtain ⟨o1, ho1, o2, ho2, rfl⟩ := mem_zipWith_elim _ _ _ _ hg
  have b1 := h1.2 o1 ho1
  have b2 := h2.2 o2 ho2
  simp only [network.size] at b1 b2
  simp only [List.mem_cons, List.mem_singleton, List.not_mem_nil, or_false] at hf
  rcases hf with rfl | rfl
  · omega
  · simp only [miter_shift, shift_index]
    split <;> omega

theorem miter_network_wf (ntk1 ntk2 : network) (h1 : ntk1.wf) (h2 : ntk2.wf)
    (hn : ntk1.num_pis = ntk2.num_pis) (hlen : ntk1.pos.length = ntk2.pos.length) :
    (miter_network ntk1 ntk2).wf := by
  constructor
  · show topological (ntk1.gates ++ ntk2.gates.map (shift_gate ntk2.num_pis ntk1.gates.length)
      ++ miter_xors ntk1 ntk2) (ntk1.num_pis + 1)
    rw [topological_append, topological_append]
    refine ⟨⟨h1.1, ?_⟩, ?_⟩
    · apply topological_shifted _ _ _ _ (by omega)
      rw [hn]
      exact h2.1
    · apply topological_of_flat
      simpa using miter_xors_fanin ntk1 ntk2 h1 h2 hn
  · intro m hm
    simp only [miter_network, List.mem_map, List.mem_range] at hm
    obtain ⟨j, hj, rfl⟩ := hm
    simp only [network.size, miter_network, miter_xors, List.length_append, List.length_map,
      List.length_zipWith, ← hlen, min_self]
    omega

theorem xor_fn_pair (x y : Bool) : xor_fn [x, y] = (x != y) := by
  cases x <;> cases y <;> rfl

theorem miter_output_value (ntk1 ntk2 : network) (h1 : ntk1.wf) (h2 : ntk2.wf)
    (hn : ntk1.num_pis = ntk2.num_pis) (a : Nat → Bool) (j : Nat) (o1 o2 : signal)
    (ho1 : ntk1.pos[j]? = some o1) (ho2 : ntk2.pos[j]? = some o2) :
    node_values (miter_network ntk1 ntk2) a
        (ntk1.num_pis + 1 + ntk1.gates.length + ntk2.gates.length + j)
      = (po_value ntk1 a o1 != po_value ntk2 a o2) := by
  have hm1 : o1 ∈ ntk1.pos := List.mem_iff_getElem?.2 ⟨j, ho1⟩
  have hm2 : o2 ∈ ntk2.pos := List.mem_iff_getElem?.2 ⟨j, ho2⟩
  have b1 := h1.2 o1 hm1
  have b2 := h2.2 o2 hm2
  simp only [network.size] at b1 b2
  have hx : (miter_xors ntk1 ntk2)[j]?
      = some ⟨[o1, miter_shift ntk2.num_pis ntk1.gates.length o2], xor_fn⟩ := by
    simp only [miter_xors, List.getElem?_zipWith, ho1, ho2]
  unfold node_values
  show eval_gates (ntk1.gates ++ ntk2.gates.map (shift_gate ntk2.num_pis ntk1.gates.length)
      ++ miter_xors ntk1 ntk2) (ntk1.num_pis + 1) _ _ = _
  rw [eval_gates_append]
  have e : ntk1.num_pis + 1 + ntk1.gates.length + ntk2.gates.length + j
      = ntk1.num_pis + 1 + (ntk1.gates ++ ntk2.gates.map
          (shift_gate ntk2.num_pis ntk1.gates.length)).length + j := by
    simp only [List.length_append, List.length_map]
    omega
  rw [e, eval_gates_flat _ _ _ (by
    simpa using miter_xors_fanin ntk1 ntk2 h1 h2 hn) j _ hx]
  simp only [List.map_cons, List.map_nil, xor_fn_pair, miter_shift]
  rw [eval_gates_append]
  rw [eval_gates_outside _ _ _ o1.index (Or.inl (by omega))]
  have hsh := eval_gates_shifted ntk2.num_pis ntk1.gates.length ntk2.gates
    (ntk2.num_pis + 1)
    (fun m => if m = 0 then false else if m ≤ ntk2.num_pis then a (m - 1) else false)
    (eval_gates ntk1.gates (ntk1.num_pis + 1)
      (fun m => if m = 0 then false
        else if m ≤ (miter_network ntk1 ntk2).num_pis then a (m - 1) else false))
    (by omega) h2.1 (by
      intro m hm
      have hle : m ≤ ntk2.num_pis := by omega
      simp only [shift_index, if_pos hle]
      rw [eval_gates_outside _ _ _ m (Or.inl (by omega))]
      have e2 : (miter_network ntk1 ntk2).num_pis = ntk2.num_pis := hn
      rw [e2]
      simp [hle])
    o2.index (by omega)
  have e3 : ntk1.num_pis + 1 + ntk1.gates.length = ntk2.num_pis + 1 + ntk1.gates.length := by
    omega
  rw [e3, hsh]
  rfl

/-! ## A network against its own copy -/

theorem self_miter_outputs_zero (ntk : network) (hwf : ntk.wf) (a : Nat → Bool) :
    ∀ m ∈ (miter_network ntk ntk).pos, po_value (miter_network ntk ntk) a m = false := by
  intro m hm
  simp only [miter_network, List.mem_map, List.mem_range] at hm
  obtain ⟨j, hj, rfl⟩ := hm
  have ho : ntk.pos[j]? = some (ntk.pos[j]) := List.getElem?_eq_getElem hj
  unfold po_value
  rw [miter_output_value ntk ntk hwf hwf rfl a j _ _ ho ho]
  simp

theorem run_accepts_zero_outputs (ntk : network) (st : simulation_cec_stats) (hwf : ntk.wf)
    (hz : ∀ a, ∀ m ∈ ntk.pos, po_value ntk a m = false) :
    (simulation_cec_impl.run ⟨ntk, st⟩).verdict = true := by
  simp only [simulation_cec_impl.run]
  rw [run_rounds_verdict _ _ _ hwf]
  exact ⟨fun i _ m hm => hz _ m hm, fun q _ _ i _ m hm => hz _ m hm⟩

/-- C6 as stated fails: a network with 41 primary inputs checked against its
own copy gets nullopt, not the verdict "equivalent". -/
theorem self_check_of_41_inputs_is_nullopt :
    (simulation_cec miter (wire_network 41) (wire_network 41) none).result = none ∧
    (simulation_cec miter (wire_network 41) (wire_network 41) none).result ≠ some true := by
  decide

/-- C6, amended: for every network with at most 40 primary inputs,
`simulation_cec` of the network and an exact structural copy of it (the
outputs of the miter are `x XOR x`) returns the optional holding true. -/
theorem simulation_cec_self (ntk : network) (pst : Option simulation_cec_stats)
    (hwf : ntk.wf) (hn : ntk.num_pis ≤ 40) :
    (simulation_cec miter ntk ntk pst).result = some true := by
  have h1 : ¬ 40 < ntk.num_pis := by omega
  have hm : miter ntk ntk = some (miter_network ntk ntk) := by simp [miter]
  simp only [simulation_cec, h1, if_false, hm]
  rw [run_accepts_zero_outputs _ _ (miter_network_wf ntk ntk hwf hwf rfl rfl)
    (self_miter_outputs_zero ntk hwf)]

theorem and2_network_wf : and2_network.wf := by
  simp [network.wf, topological, and2_network, network.size]

theorem simulation_cec_self_witness :
    and2_network.wf ∧ and2_network.num_pis ≤ 40 ∧
    (simulation_cec miter and2_network and2_network none).result = some true :=
  ⟨and2_network_wf, by decide,
    simulation_cec_self and2_network none and2_network_wf (by decide)⟩

/-! ## The oracle, the purge and the statistics -/

theorem is_const0_iff_bits (t : dynamic_truth_table) :
    is_const0 t = true ↔ ∀ b ∈ t.bits, b = false := by
  simp [is_const0, List.all_eq_true]

theorem is_const0_not_iff_bits (t : dynamic_truth_table) :
    is_const0 (unary_not t) = true ↔ ∀ b ∈ t.bits, b = true := by
  simp [is_const0, unary_not, List.all_eq_true]

/-- C12: `equivalent` returns true if and only if, for every primary output,
the pattern of its driving node is constant 0 when the output is not
complemented and the complement of that pattern is constant 0 when it is
(all bits 0, respectively all bits 1); one failing output makes the result
false, and a network without outputs yields true. -/
theorem equivalent_spec (net : network) (patterns : pattern_t) :
    (equivalent net patterns = true ↔
      ∀ m ∈ net.pos,
        (m.complement = false → is_const0 (patterns.read m.index) = true) ∧
        (m.complement = true → is_const0 (unary_not (patterns.read m.index)) = true)) ∧
    (equivalent net patterns = true ↔
      ∀ m ∈ net.pos, ∀ b ∈ (patterns.read m.index).bits, b = m.complement) ∧
    (∀ m ∈ net.pos,
      is_const0 (if m.complement then unary_not (patterns.read m.index)
                 else patterns.read m.index) = false →
      equivalent net patterns = false) ∧
    (net.pos = [] → equivalent net patterns = true) := by
  have h1 : equivalent net patterns = true ↔
      ∀ m ∈ net.pos,
        (m.complement = false → is_const0 (patterns.read m.index) = true) ∧
        (m.complement = true → is_const0 (unary_not (patterns.read m.index)) = true) := by
    rw [equivalent_iff]
    constructor
    · intro h m hm
      have := h m hm
      cases hc : m.complement <;> simp_all
    · intro h m hm
      have := h m hm
      cases hc : m.complement <;> simp_all
  refine ⟨h1, ?_, ?_, ?_⟩
  · rw [h1]
    constructor
    · intro h m hm b hb
      cases hc : m.complement
      · exact (is_const0_iff_bits _).1 ((h m hm).1 hc) b hb
      · exact (is_const0_not_iff_bits _).1 ((h m hm).2 hc) b hb
    · intro h m hm
      constructor
      · intro hc
        apply (is_const0_iff_bits _).2
        intro b hb
        rw [h m hm b hb, hc]
      · intro hc
        apply (is_const0_not_iff_bits _).2
        intro b hb
        rw [h m hm b hb, hc]
  · intro m hm hfail
    cases he : equivalent net patterns
    · rfl
    · have := (equivalent_iff net patterns).1 he m hm
      rw [hfail] at this
      exact absurd this (by decide)
  · intro hnil
    apply (equivalent_iff net patterns).2
    intro m hm
    rw [hnil] at hm
    exact absurd hm (List.not_mem_nil m)

theorem equivalent_spec_witness :
    equivalent and_or_miter (round_store and_or_miter 2 0) = false :=
  (equivalent_spec and_or_miter (round_store and_or_miter 2 0)).2.2.1 ⟨5, false⟩
    (by decide) (by decide)

/-- C16: `free` removes the entry of every gate of the network, so that no
gate entry is left, and keeps the entry of every primary input as it is; and a
store never holds more gate entries than the network has gates, so between two
purges at most `num_gates` of them are alive, whatever the number of rounds. -/
theorem free_purges_gate_entries (ntk : network) (patterns : pattern_t) :
    (∀ j, j < ntk.gates.length → free ntk patterns (ntk.gate_node j) = none) ∧
    gate_entries ntk (free ntk patterns) = 0 ∧
    (∀ k, k < ntk.num_pis → free ntk patterns (ntk.pi_node k) = patterns (ntk.pi_node k)) ∧
    gate_entries ntk patterns ≤ ntk.gates.length := by
  have hg : ∀ j, j < ntk.gates.length → free ntk patterns (ntk.gate_node j) = none := by
    intro j hj
    rw [free_apply]
    have : ntk.num_pis + 1 ≤ ntk.gate_node j ∧ ntk.gate_node j < ntk.size := by
      simp only [network.gate_node, network.size]
      omega
    rw [if_pos this]
  refine ⟨hg, ?_, ?_, ?_⟩
  · unfold gate_entries
    rw [List.length_eq_zero, List.filter_eq_nil_iff]
    intro j hj
    rw [List.mem_range] at hj
    simp [pattern_t.has, hg j hj]
  · intro k hk
    rw [free_apply]
    have : ¬ (ntk.num_pis + 1 ≤ ntk.pi_node k ∧ ntk.pi_node k < ntk.size) := by
      simp only [network.pi_node]
      omega
    rw [if_neg this]
  · unfold gate_entries
    calc ((List.range ntk.gates.length).filter _).length
        ≤ (List.range ntk.gates.length).length := List.length_filter_le _ _
      _ = ntk.gates.length := List.length_range _

theorem free_purges_gate_entries_witness :
    free and_or_miter (round_store and_or_miter 2 0) (and_or_miter.gate_node 2) = none ∧
    free and_or_miter (round_store and_or_miter 2 0) (and_or_miter.pi_node 1)
      = round_store and_or_miter 2 0 (and_or_miter.pi_node 1) ∧
    gate_entries and_or_miter (round_store and_or_miter 2 0) = 3 ∧
    gate_entries and_or_miter (free and_or_miter (round_store and_or_miter 2 0)) = 0 :=
  ⟨(free_purges_gate_entries and_or_miter (round_store and_or_miter 2 0)).1 2 (by decide),
   (free_purges_gate_entries and_or_miter (round_store and_or_miter 2 0)).2.2.1 1 (by decide),
   by decide,
   (free_purges_gate_entries and_or_miter (round_store and_or_miter 2 0)).2.1⟩

/-- C17: when the first network has at most 40 primary inputs, the miter is
built and a statistics handle is supplied, `simulation_cec` writes to the
handle exactly the `split_var` and `rounds` computed from the miter's number
of primary inputs and node count, which are the values the rounds are run
with, whatever the verdict. -/
theorem simulation_cec_reports_parameters (mit : network → network → Option network)
    (ntk1 ntk2 ntk_miter : network) (handle : simulation_cec_stats)
    (h40 : ntk1.num_pis ≤ 40) (hm : mit ntk1 ntk2 = some ntk_miter) :
    (simulation_cec mit ntk1 ntk2 (some handle)).pst
      = some ⟨compute_splitting_var ntk_miter.num_pis (ntk_miter.size % 2 ^ 32),
          compute_rounds ntk_miter.num_pis
            (compute_splitting_var ntk_miter.num_pis (ntk_miter.size % 2 ^ 32))⟩ ∧
    (simulation_cec mit ntk1 ntk2 (some handle)).pst_written = true ∧
    (simulation_cec mit ntk1 ntk2 (some handle)).result
      = some (run_rounds ntk_miter
          (compute_splitting_var ntk_miter.num_pis (ntk_miter.size % 2 ^ 32))
          (compute_rounds ntk_miter.num_pis
            (compute_splitting_var ntk_miter.num_pis (ntk_miter.size % 2 ^ 32)))).1 := by
  have h1 : ¬ 40 < ntk1.num_pis := by omega
  simp [simulation_cec, h1, hm, simulation_cec_impl.run]

theorem simulation_cec_reports_parameters_witness :
    (simulation_cec miter and2_network or2_network (some ⟨7, 7⟩)).pst = some ⟨2, 1⟩ ∧
    (simulation_cec miter and2_network or2_network (some ⟨7, 7⟩)).result = some false ∧
    (simulation_cec miter and2_network and2_network (some ⟨7, 7⟩)).pst = some ⟨2, 1⟩ ∧
    (simulation_cec miter and2_network and2_network (some ⟨7, 7⟩)).result = some true := by
  have h1 := simulation_cec_reports_parameters miter and2_network or2_network
    (miter_network and2_network or2_network) ⟨7, 7⟩ (by decide) rfl
  have h2 := simulation_cec_reports_parameters miter and2_network and2_network
    (miter_network and2_network and2_network) ⟨7, 7⟩ (by decide) rfl
  refine ⟨?_, by decide, ?_, by decide⟩
  · rw [h1.1]
    decide
  · rw [h2.1]
    decide

/-- C18: on every store reached from `init_patterns` through calls of
`update_pattern` with arbitrary round indices (and of the simulation engine
and `free`), every primary input at ordinal `k ≥ split_var` holds a constant
pattern, all-zero or all-ones, and every primary input at ordinal
`k < split_var` holds its `k`-th projection pattern. -/
theorem reachable_store_invariant (ntk : network) (split_var : Nat) (patterns : pattern_t)
    (k : Nat) (hreach : reachable ntk split_var patterns) (hk : k < ntk.num_pis) :
    (split_var ≤ k →
      patterns (ntk.pi_node k) = some (const_table split_var false) ∨
      patterns (ntk.pi_node k) = some (const_table split_var true)) ∧
    (k < split_var → patterns (ntk.pi_node k) = some (projection_table split_var k)) := by
  have hs := reachable_settled ntk split_var patterns hreach
  constructor
  · intro h
    obtain ⟨c, hc⟩ := hs.2.2.1 k hk h
    cases c
    · exact Or.inl hc
    · exact Or.inr hc
  · intro h
    exact hs.2.1 k hk h

theorem reachable_of_updates (ntk : network) (split_var : Nat) (rs : List Nat) :
    reachable ntk split_var
      (rs.foldl (update_pattern ntk split_var) (init_patterns ntk split_var pattern_t.init)) := by
  induction rs using List.reverseRecOn with
  | nil => exact reachable.init
  | append_singleton rs r ih =>
    rw [List.foldl_append]
    exact reachable.update _ r ih

theorem reachable_store_invariant_witness :
    (1 ≤ 2 →
      [5, 2, 7].foldl (update_pattern (wire_network 3) 1)
          (init_patterns (wire_network 3) 1 pattern_t.init) ((wire_network 3).pi_node 2)
        = some (const_table 1 false) ∨
      [5, 2, 7].foldl (update_pattern (wire_network 3) 1)
          (init_patterns (wire_network 3) 1 pattern_t.init) ((wire_network 3).pi_node 2)
        = some (const_table 1 true)) ∧
    (2 < 1 →
      [5, 2, 7].foldl (update_pattern (wire_network 3) 1)
          (init_patterns (wire_network 3) 1 pattern_t.init) ((wire_network 3).pi_node 2)
        = some (projection_table 1 2)) :=
  reachable_store_invariant (wire_network 3) 1 _ 2
    (reachable_of_updates (wire_network 3) 1 [5, 2, 7]) (by decide)

/-! ## Soundness of Reject -/

theorem node_values_congr (ntk : network) (a b : Nat → Bool)
    (h : ∀ k, k < ntk.num_pis → a k = b k) : node_values ntk a = node_values ntk b := by
  have e : (fun m => if m = 0 then false else if m ≤ ntk.num_pis then a (m - 1) else false)
      = (fun m => if m = 0 then false else if m ≤ ntk.num_pis then b (m - 1) else false) := by
    funext m
    by_cases h0 : m = 0
    · rw [if_pos h0, if_pos h0]
    · by_cases hle : m ≤ ntk.num_pis
      · rw [if_neg h0, if_neg h0, if_pos hle, if_pos hle]
        exact h (m - 1) (by omega)
      · rw [if_neg h0, if_neg h0, if_neg hle, if_neg hle]
  unfold node_values
  rw [e]

theorem round_ok_of_all_zero (ntk : network) (split_var q : Nat)
    (hz : ∀ x, x < 2 ^ ntk.num_pis → ∀ m ∈ ntk.pos,
      po_value ntk (input_combination x) m = false) :
    round_ok ntk split_var q := by
  intro i hi m hm
  rw [round_assignment_eq _ _ _ hi]
  have hc : node_values ntk (input_combination (2 ^ split_var * q + i))
      = node_values ntk (input_combination ((2 ^ split_var * q + i) % 2 ^ ntk.num_pis)) := by
    apply node_values_congr
    intro k hk
    simp [input_combination, nth_bit_eq_testBit, Nat.testBit_mod_two_pow, hk]
  have := hz ((2 ^ split_var * q + i) % 2 ^ ntk.num_pis)
    (Nat.mod_lt _ (by positivity)) m hm
  unfold po_value at this ⊢
  rw [hc]
  exact this

/-- C19: whatever the values of `split_var` and `rounds` (a wrapped round
count included), if the rounds return false on a well-formed network, then
some assignment of the `n` primary inputs makes some complement-adjusted
primary output 1; in particular this holds for the verdict of `run`. -/
theorem reject_is_sound (ntk : network) (hwf : ntk.wf) :
    (∀ split_var rounds, (run_rounds ntk split_var rounds).1 = false →
      ∃ x, x < 2 ^ ntk.num_pis ∧ ∃ m ∈ ntk.pos,
        po_value ntk (input_combination x) m = true) ∧
    (∀ st, (simulation_cec_impl.run ⟨ntk, st⟩).verdict = false →
      ∃ x, x < 2 ^ ntk.num_pis ∧ ∃ m ∈ ntk.pos,
        po_value ntk (input_combination x) m = true) := by
  have key : ∀ split_var rounds, (run_rounds ntk split_var rounds).1 = false →
      ∃ x, x < 2 ^ ntk.num_pis ∧ ∃ m ∈ ntk.pos,
        po_value ntk (input_combination x) m = true := by
    intro split_var rounds h
    by_contra hne
    have hz : ∀ x, x < 2 ^ ntk.num_pis → ∀ m ∈ ntk.pos,
        po_value ntk (input_combination x) m = false := by
      intro x hx m hm
      cases hv : po_value ntk (input_combination x) m
      · rfl
      · exact absurd ⟨x, hx, m, hm, hv⟩ hne
    have htrue : (run_rounds ntk split_var rounds).1 = true :=
      (run_rounds_verdict ntk split_var rounds hwf).2
        ⟨round_ok_of_all_zero ntk split_var 0 hz,
         fun q _ _ => round_ok_of_all_zero ntk split_var q hz⟩
    rw [h] at htrue
    exact absurd htrue (by decide)
  exact ⟨key, fun st h => key _ _ h⟩

theorem reject_is_sound_witness :
    ∃ x, x < 2 ^ and_or_miter.num_pis ∧ ∃ m ∈ and_or_miter.pos,
      po_value and_or_miter (input_combination x) m = true :=
  (reject_is_sound and_or_miter and_or_miter_wf).1 0 4 (by decide)

/-! ## The rounds enumerate the input space exactly once -/

theorem read_assignment_round (ntk : network) (split_var : Nat) (prev : pattern_t) (r i k : Nat)
    (hreach : reachable ntk split_var prev) (hi : i < 2 ^ split_var)
    (hk : k < ntk.num_pis) :
    read_assignment ntk (round_patterns ntk split_var prev r) i k
      = round_assignment split_var r i k := by
  have hs := reachable_settled ntk split_var prev hreach
  have hentry : round_patterns ntk split_var prev r (ntk.pi_node k)
      = some (if k < split_var then projection_table split_var k
              else const_table split_var (nth_bit r (k - split_var))) := by
    unfold round_patterns
    by_cases hr : r = 0
    · rw [if_pos hr, init_patterns_pi _ _ _ _ hk, hr]
      simp [nth_bit_zero]
    · rw [if_neg hr]
      by_cases hks : k < split_var
      · rw [if_pos hks]
        simp only [network.pi_node]
        rw [update_pattern_other _ _ _ _ _ (Or.inr (Or.inl (by omega)))]
        exact hs.2.1 k hk hks
      · rw [if_neg hks]
        obtain ⟨c, hc⟩ := hs.2.2.1 k hk (by omega)
        exact update_pattern_const ntk split_var prev r k c hk (by omega) hc
  unfold read_assignment
  rw [read_of_some hentry]
  by_cases hks : k < split_var
  · simp only [hks, if_true, round_assignment]
    exact (projection_table_holds split_var k).2.2 i hi
  · simp only [hks, if_false, round_assignment]
    exact (const_table_holds split_var _).2.2 i hi

/-- C11 as stated fails: a round index is a 32-bit value, and with 34 primary
inputs and `split_var = 1` no round index below `2 ^ 32` and no bit position
yields the assignment with code `2 ^ 33` (input 33 at 1, all others at 0). -/
theorem round_index_misses_assignment :
    1 < (wire_network 34).num_pis ∧ 2 ^ 33 < 2 ^ (wire_network 34).num_pis ∧
    ¬ ∃ r i, r < 2 ^ 32 ∧ i < 2 ^ 1 ∧
      ∀ k, k < (wire_network 34).num_pis →
        read_assignment (wire_network 34)
            (round_patterns (wire_network 34) 1
              (init_patterns (wire_network 34) 1 pattern_t.init) r) i k
          = Nat.testBit (2 ^ 33) k := by
  refine ⟨by decide, by decide, ?_⟩
  rintro ⟨r, i, hr, hi, hbits⟩
  have h33 := hbits 33 (by decide)
  rw [read_assignment_round (wire_network 34) 1 _ r i 33 reachable.init hi (by decide),
    round_assignment_eq _ _ _ hi] at h33
  simp only [input_combination, nth_bit_eq_testBit] at h33
  have hlt : 2 ^ 1 * r + i < 2 ^ 33 := by omega
  rw [Nat.testBit_lt_two_pow hlt, Nat.testBit_two_pow_self] at h33
  exact absurd h33 (by decide)

/-- C11, amended: for `split_var ≤ n` with `n - split_var ≤ 32`, so that every
round index below `2 ^ (n - split_var)` is a 32-bit value, the assignment read
off the primary-input patterns at bit `i` in round `r` is the input
combination with code `2 ^ split_var * r + i`, and the rounds
`r < 2 ^ (n - split_var)` with the bit positions `i < 2 ^ split_var` cover
every one of the `2 ^ n` assignments exactly once. -/
theorem rounds_enumerate_assignments (ntk : network) (split_var : Nat)
    (prev : Nat → pattern_t) (hs : split_var ≤ ntk.num_pis)
    (hfit : ntk.num_pis - split_var ≤ 32)
    (hprev : ∀ r, reachable ntk split_var (prev r)) :
    (∀ r i k, r < 2 ^ 32 → i < 2 ^ split_var → k < ntk.num_pis →
      read_assignment ntk (round_patterns ntk split_var (prev r) r) i k
        = (2 ^ split_var * r + i).testBit k) ∧
    (∀ x, x < 2 ^ ntk.num_pis →
      ∃! ri : Nat × Nat, ri.1 < 2 ^ (ntk.num_pis - split_var) ∧ ri.1 < 2 ^ 32 ∧
        ri.2 < 2 ^ split_var ∧
        ∀ k, k < ntk.num_pis →
          read_assignment ntk (round_patterns ntk split_var (prev ri.1) ri.1) ri.2 k
            = x.testBit k) := by
  have hread : ∀ r i k, i < 2 ^ split_var → k < ntk.num_pis →
      read_assignment ntk (round_patterns ntk split_var (prev r) r) i k
        = (2 ^ split_var * r + i).testBit k := by
    intro r i k hi hk
    rw [read_assignment_round ntk split_var (prev r) r i k (hprev r) hi hk,
      round_assignment_eq _ _ _ hi]
    simp [input_combination, nth_bit_eq_testBit]
  have hpow : 2 ^ ntk.num_pis = 2 ^ split_var * 2 ^ (ntk.num_pis - split_var) := by
    rw [← pow_add]
    congr 1
    omega
  have hpos : 0 < 2 ^ split_var := by positivity
  have h32 : 2 ^ (ntk.num_pis - split_var) ≤ 2 ^ 32 :=
    Nat.pow_le_pow_right (by decide) hfit
  refine ⟨fun r i k _ hi hk => hread r i k hi hk, fun x hx => ?_⟩
  have hq : x / 2 ^ split_var < 2 ^ (ntk.num_pis - split_var) := by
    rw [Nat.div_lt_iff_lt_mul hpos, Nat.mul_comm, ← hpow]
    exact hx
  refine ⟨(x / 2 ^ split_var, x % 2 ^ split_var),
    ⟨hq, Nat.lt_of_lt_of_le hq h32, Nat.mod_lt _ hpos, ?_⟩, ?_⟩
  · intro k hk
    rw [hread _ _ _ (Nat.mod_lt _ hpos) hk, Nat.div_add_mod]
  · rintro ⟨r, i⟩ ⟨hr, -, hi, hbits⟩
    simp only at hr hi hbits
    have hy : 2 ^ split_var * r + i < 2 ^ ntk.num_pis := by
      rw [hpow]
      calc 2 ^ split_var * r + i
          < 2 ^ split_var * r + 2 ^ split_var := by omega
        _ = 2 ^ split_var * (r + 1) := by ring
        _ ≤ 2 ^ split_var * 2 ^ (ntk.num_pis - split_var) := Nat.mul_le_mul_left _ hr
    have heq : 2 ^ split_var * r + i = x := by
      apply Nat.eq_of_testBit_eq
      intro k
      by_cases hk : k < ntk.num_pis
      · rw [← hread r i k hi hk]
        exact hbits k hk
      · have hle : 2 ^ ntk.num_pis ≤ 2 ^ k :=
          Nat.pow_le_pow_right (by decide) (by omega)
        rw [Nat.testBit_lt_two_pow (by omega), Nat.testBit_lt_two_pow (by omega)]
    apply Prod.ext
    · show r = x / 2 ^ split_var
      rw [← heq, Nat.mul_add_div hpos, Nat.div_eq_of_lt hi]
      rfl
    · show i = x % 2 ^ split_var
      rw [← heq, Nat.mul_add_mod, Nat.mod_eq_of_lt hi]

theorem rounds_enumerate_assignments_witness :
    ∃! ri : Nat × Nat, ri.1 < 2 ^ ((wire_network 3).num_pis - 1) ∧ ri.1 < 2 ^ 32 ∧
      ri.2 < 2 ^ 1 ∧
      ∀ k, k < (wire_network 3).num_pis →
        read_assignment (wire_network 3)
            (round_patterns (wire_network 3) 1
              (init_patterns (wire_network 3) 1 pattern_t.init) ri.1) ri.2 k
          = Nat.testBit 5 k :=
  (rounds_enumerate_assignments (wire_network 3) 1
    (fun _ => init_patterns (wire_network 3) 1 pattern_t.init) (by decide) (by decide)
    (fun _ => reachable.init)).2 5 (by decide)

/-! ## Early termination and the number of passes -/

theorem run_loop_trace (ntk : network) (split_var count r : Nat) :
    (∀ q, r + 1 ≤ q → q < r + 1 + count →
      (∀ p, r + 1 ≤ p → p < q → oracle ntk split_var p = true) →
      oracle ntk split_var q = false →
      run_loop ntk split_var ⟨split_var⟩ count (r + 1) (round_store ntk split_var r)
        = (false, q - r)) ∧
    ((∀ q, r + 1 ≤ q → q < r + 1 + count → oracle ntk split_var q = true) →
      run_loop ntk split_var ⟨split_var⟩ count (r + 1) (round_store ntk split_var r)
        = (true, count)) := by
  induction count generalizing r with
  | zero =>
    constructor
    · intro q h1 h2
      omega
    · intro _
      simp [run_loop]
  | succ count ih =>
    have hstep : run_loop ntk split_var ⟨split_var⟩ (count + 1) (r + 1)
          (round_store ntk split_var r)
        = if !oracle ntk split_var (r + 1) then (false, 1)
          else ((run_loop ntk split_var ⟨split_var⟩ count (r + 1 + 1)
                  (round_store ntk split_var (r + 1))).1,
                (run_loop ntk split_var ⟨split_var⟩ count (r + 1 + 1)
                  (round_store ntk split_var (r + 1))).2 + 1) := rfl
    obtain ⟨ih1, ih2⟩ := ih (r + 1)
    constructor
    · intro q h1 h2 hbefore hfail
      rw [hstep]
      by_cases hq : q = r + 1
      · subst hq
        rw [hfail]
        have e : r + 1 - r = 1 := by omega
        simp [e]
      · have hfirst : oracle ntk split_var (r + 1) = true :=
          hbefore (r + 1) (Nat.le_refl _) (by omega)
        rw [hfirst, ih1 q (by omega) (by omega)
          (fun p hp1 hp2 => hbefore p (by omega) hp2) hfail]
        have e : q - (r + 1) + 1 = q - r := by omega
        simp [e]
    · intro hall
      rw [hstep, hall (r + 1) (Nat.le_refl _) (by omega),
        ih2 (fun q h1 h2 => hall q (by omega) (by omega))]
      simp

theorem run_rounds_trace (ntk : network) (split_var rounds : Nat) :
    (∀ q, (q = 0 ∨ q < rounds) →
      (∀ p, p < q → oracle ntk split_var p = true) →
      oracle ntk split_var q = false →
      run_rounds ntk split_var rounds = (false, q + 1)) ∧
    ((∀ q, (q = 0 ∨ q < rounds) → oracle ntk split_var q = true) →
      run_rounds ntk split_var rounds = (true, rounds - 1 + 1)) := by
  have hstep : run_rounds ntk split_var rounds
      = if !oracle ntk split_var 0 then (false, 1)
        else ((run_loop ntk split_var ⟨split_var⟩ (rounds - 1) (0 + 1)
                (round_store ntk split_var 0)).1,
              (run_loop ntk split_var ⟨split_var⟩ (rounds - 1) (0 + 1)
                (round_store ntk split_var 0)).2 + 1) := rfl
  obtain ⟨h1, h2⟩ := run_loop_trace ntk split_var (rounds - 1) 0
  constructor
  · intro q hq hbefore hfail
    rw [hstep]
    by_cases hq0 : q = 0
    · subst hq0
      rw [hfail]
      simp
    · have hfirst : oracle ntk split_var 0 = true := hbefore 0 (by omega)
      rw [hfirst, h1 q (by omega) (by omega) (fun p _ hp2 => hbefore p hp2) hfail]
      simp
  · intro hall
    rw [hstep, hall 0 (Or.inl rfl), h2 (fun q _ hq2 => hall q (Or.inr (by omega)))]
    simp

theorem oracle_zero_iff (ntk : network) (split_var : Nat) (hwf : ntk.wf) :
    oracle ntk split_var 0 = true ↔ round_ok ntk split_var 0 :=
  round_zero_check ntk split_var hwf

/-- C13: in `run`, if the oracle returns false in round `r < rounds` and in no
round before it, then `run` returns false after exactly `r + 1` passes, so no
round after `r` is carried out; and if no round fails, `run` returns true
after exactly `rounds` passes. -/
theorem run_stops_at_first_failure (ntk : network) (st : simulation_cec_stats) :
    (∀ r, r < (simulation_cec_impl.run ⟨ntk, st⟩).st.rounds →
      (∀ q, q < r →
        oracle ntk (simulation_cec_impl.run ⟨ntk, st⟩).st.split_var q = true) →
      oracle ntk (simulation_cec_impl.run ⟨ntk, st⟩).st.split_var r = false →
      (simulation_cec_impl.run ⟨ntk, st⟩).verdict = false ∧
      (simulation_cec_impl.run ⟨ntk, st⟩).passes = r + 1) ∧
    ((∀ r, r < (simulation_cec_impl.run ⟨ntk, st⟩).st.rounds →
        oracle ntk (simulation_cec_impl.run ⟨ntk, st⟩).st.split_var r = true) →
      (simulation_cec_impl.run ⟨ntk, st⟩).verdict = true ∧
      (simulation_cec_impl.run ⟨ntk, st⟩).passes
        = (simulation_cec_impl.run ⟨ntk, st⟩).st.rounds) := by
  simp only [simulation_cec_impl.run]
  have hpos := compute_rounds_pos ntk.num_pis
    (compute_splitting_var ntk.num_pis (ntk.size % 2 ^ 32))
  obtain ⟨h1, h2⟩ := run_rounds_trace ntk
    (compute_splitting_var ntk.num_pis (ntk.size % 2 ^ 32))
    (compute_rounds ntk.num_pis (compute_splitting_var ntk.num_pis (ntk.size % 2 ^ 32)))
  constructor
  · intro r hr hbefore hfail
    rw [h1 r (Or.inr hr) hbefore hfail]
    exact ⟨rfl, rfl⟩
  · intro hall
    rw [h2 (fun q hq => by
      rcases hq with hq | hq
      · rw [hq]
        exact hall 0 (by omega)
      · exact hall q hq)]
    refine ⟨rfl, ?_⟩
    show _ - 1 + 1 = _
    omega

theorem run_stops_at_first_failure_witness :
    ((simulation_cec_impl.run ⟨and_or_miter, ⟨0, 0⟩⟩).verdict = false ∧
      (simulation_cec_impl.run ⟨and_or_miter, ⟨0, 0⟩⟩).passes = 0 + 1) ∧
    ((simulation_cec_impl.run ⟨miter_network and2_network and2_network, ⟨0, 0⟩⟩).verdict
        = true ∧
      (simulation_cec_impl.run ⟨miter_network and2_network and2_network, ⟨0, 0⟩⟩).passes
        = (simulation_cec_impl.run
            ⟨miter_network and2_network and2_network, ⟨0, 0⟩⟩).st.rounds) :=
  ⟨(run_stops_at_first_failure and_or_miter ⟨0, 0⟩).1 0 (by decide)
      (fun q hq => absurd hq (Nat.not_lt_zero q)) (by decide),
   (run_stops_at_first_failure (miter_network and2_network and2_network) ⟨0, 0⟩).2
      (by decide)⟩

/-! ## Range of the parameters and the memory bound -/

theorem log2_plus3_u32_ge (x : Nat) (hx : x ≠ 0) : 3 ≤ log2_plus3_u32 x := by
  simp [log2_plus3_u32, hx]

/-- C14 as stated fails: for the network without primary inputs `run`
computes `split_var = 0`, so `1 ≤ split_var` does not hold. -/
theorem split_var_zero_without_inputs :
    constant_network.num_pis = 0 ∧ 1 ≤ constant_network.size ∧
    (simulation_cec_impl.run ⟨constant_network, ⟨0, 0⟩⟩).st.split_var = 0 ∧
    ¬ (1 ≤ (simulation_cec_impl.run ⟨constant_network, ⟨0, 0⟩⟩).st.split_var) := by
  decide

/-- C14, amended: the parameters computed by `run` satisfy `split_var ≤ n`
for every network (the subtraction `n - split_var` never underflows);
`1 ≤ split_var` when the network has at least one primary input and either
`n ≤ 6` or the quotient `2^29 div v` is not 32 (the argument of `log2` is not
0); and `rounds ≥ 1` whenever `n - split_var ≤ 31`, where `rounds` is
`2 ^ (n - split_var)`. -/
theorem run_parameters_in_range (ntk : network) (st : simulation_cec_stats) :
    (simulation_cec_impl.run ⟨ntk, st⟩).st.split_var ≤ ntk.num_pis ∧
    (1 ≤ ntk.num_pis → (ntk.num_pis ≤ 6 ∨ 2 ^ 29 / (ntk.size % 2 ^ 32) ≠ 32) →
      1 ≤ (simulation_cec_impl.run ⟨ntk, st⟩).st.split_var) ∧
    (ntk.num_pis - (simulation_cec_impl.run ⟨ntk, st⟩).st.split_var < 32 →
      1 ≤ (simulation_cec_impl.run ⟨ntk, st⟩).st.rounds ∧
      (simulation_cec_impl.run ⟨ntk, st⟩).st.rounds
        = 2 ^ (ntk.num_pis - (simulation_cec_impl.run ⟨ntk, st⟩).st.split_var)) := by
  simp only [simulation_cec_impl.run]
  have hle := compute_splitting_var_le ntk.num_pis (ntk.size % 2 ^ 32)
  refine ⟨hle, ?_, ?_⟩
  · intro hn hcase
    unfold compute_splitting_var
    by_cases h6 : ntk.num_pis ≤ 6
    · rw [if_pos h6]
      exact hn
    · rw [if_neg h6]
      have hq : 2 ^ 29 / (ntk.size % 2 ^ 32) ≠ 32 := by
        rcases hcase with h | h
        · exact absurd h h6
        · exact h
      have hqle : 2 ^ 29 / (ntk.size % 2 ^ 32) ≤ 2 ^ 29 := Nat.div_le_self _ _
      have hx : (2 ^ 29 / (ntk.size % 2 ^ 32) + 2 ^ 32 - 32) % 2 ^ 32 ≠ 0 := by
        generalize 2 ^ 29 / (ntk.size % 2 ^ 32) = q at hq hqle
        omega
      have h3 := log2_plus3_u32_ge _ hx
      simp only [ge_iff_le, le_min_iff]
      exact ⟨hn, by omega⟩
  · intro hlt
    rw [compute_rounds_eq _ _ hle hlt]
    exact ⟨Nat.one_le_two_pow, rfl⟩

theorem run_parameters_in_range_witness :
    (simulation_cec_impl.run ⟨wire_network 40, ⟨0, 0⟩⟩).st.split_var ≤ 40 ∧
    1 ≤ (simulation_cec_impl.run ⟨wire_network 40, ⟨0, 0⟩⟩).st.split_var ∧
    1 ≤ (simulation_cec_impl.run ⟨wire_network 40, ⟨0, 0⟩⟩).st.rounds :=
  ⟨(run_parameters_in_range (wire_network 40) ⟨0, 0⟩).1,
   (run_parameters_in_range (wire_network 40) ⟨0, 0⟩).2.1 (by decide) (Or.inr (by decide)),
   ((run_parameters_in_range (wire_network 40) ⟨0, 0⟩).2.2 (by decide)).1⟩

theorem pattern_memory_bound_of_no_wrap (n v : Nat) (hn : 6 < n)
    (hq : 32 ≤ 2 ^ 29 / v) : v * 2 ^ compute_splitting_var n v ≤ 2 ^ 32 := by
  have hqle : 2 ^ 29 / v ≤ 2 ^ 29 := Nat.div_le_self _ _
  have hwrap : (2 ^ 29 / v + 2 ^ 32 - 32) % 2 ^ 32 = 2 ^ 29 / v - 32 := by omega
  have hvq : v * (2 ^ 29 / v) ≤ 2 ^ 29 := Nat.mul_div_le _ _
  have hnot : ¬ n ≤ 6 := by omega
  have hz : v * 2 ^ log2_plus3_u32 (2 ^ 29 / v - 32) ≤ 2 ^ 32 := by
    unfold log2_plus3_u32
    by_cases hx : 2 ^ 29 / v - 32 = 0
    · rw [if_pos hx]
      have : v * 32 ≤ v * (2 ^ 29 / v) := Nat.mul_le_mul_left _ hq
      omega
    · rw [if_neg hx, log2_halving_eq 32 _ (by omega), pow_add]
      have hlog : 2 ^ Nat.log 2 (2 ^ 29 / v - 32) ≤ 2 ^ 29 / v - 32 :=
        Nat.pow_log_le_self 2 hx
      have h1 : v * 2 ^ Nat.log 2 (2 ^ 29 / v - 32) ≤ v * (2 ^ 29 / v) :=
        Nat.mul_le_mul_left _ (by omega)
      calc v * (2 ^ Nat.log 2 (2 ^ 29 / v - 32) * 2 ^ 3)
          = v * 2 ^ Nat.log 2 (2 ^ 29 / v - 32) * 2 ^ 3 := by ring
        _ ≤ 2 ^ 29 * 2 ^ 3 := Nat.mul_le_mul_right _ (by omega)
        _ = 2 ^ 32 := by norm_num
  have hsv : compute_splitting_var n v
      = min n (log2_plus3_u32 (2 ^ 29 / v - 32)) := by
    simp only [compute_splitting_var, hnot, if_false, hwrap]
  rw [hsv]
  calc v * 2 ^ min n (log2_plus3_u32 (2 ^ 29 / v - 32))
      ≤ v * 2 ^ log2_plus3_u32 (2 ^ 29 / v - 32) :=
        Nat.mul_le_mul_left _ (Nat.pow_le_pow_right (by decide) (Nat.min_le_right _ _))
    _ ≤ 2 ^ 32 := hz

/-- C15 fails on the code: for 40 primary inputs and 16777217 nodes the
quotient `2^29 div v` is 31, the unsigned subtraction of 32 wraps to
`2 ^ 32 - 1`, and `compute_splitting_var` returns 34, so that
`v * 2 ^ split_var` is far above `2 ^ 32`. -/
theorem splitting_var_wraps_above_ceiling :
    2 ^ 29 / 16777217 = 31 ∧
    (2 ^ 29 / 16777217 + 2 ^ 32 - 32) % 2 ^ 32 = 2 ^ 32 - 1 ∧
    compute_splitting_var 40 16777217 = 34 ∧
    2 ^ 32 < 16777217 * 2 ^ compute_splitting_var 40 16777217 := by
  decide

end mockturtle
